import Mathlib

/-!
# Liveness analysis (`LivenessAnalysis.cpp`)

A shallow embedding of the `Liveness` function pass.

* A `Value *` (the pointer operand of a load or store) is a `Nat`; two operands are the
  same variable iff the numbers are equal.
* A `set<Value *>` is a `Finset Nat`; `std::equal` on two sorted sets is equality of finsets.
* A `vector<set<Value *>>` is a `List (Finset Nat)`, read with `getD · ∅` and written
  with `List.set`.
* A `BasicBlock *` is the position of the block in the function, so the map `BBMap`
  built in `runOnFunction` (block ↦ index) is the identity on `0 .. count-1`; a
  routine is well formed when every successor is such a position.
-/

namespace Liveness

/-! ## Data model -/

/-- An instruction as the pass sees it: a load from `v`, a store to `v`, or anything else. -/
inductive Instr where
  | Load (v : Nat)
  | Store (v : Nat)
  | Other
  deriving DecidableEq

/-- A basic block: its instructions in program order and `successors(bb)`. -/
structure BasicBlock where
  insts : List Instr
  succs : List Nat
  deriving DecidableEq

/-- The block read by an index outside `BBList`: no instruction, no successor. -/
def noBlock : BasicBlock := ⟨[], []⟩

/-- The function handed to the pass: its name and its basic blocks, entry first. -/
structure LLVMFunction where
  name : String
  blocks : List BasicBlock

/-- Every successor of every block is a block of the routine. -/
def WellFormed (BBList : List BasicBlock) : Prop :=
  ∀ bb ∈ BBList, ∀ s ∈ bb.succs, s < BBList.length

instance (BBList : List BasicBlock) : Decidable (WellFormed BBList) := by
  unfold WellFormed; infer_instance

/-! ## The function `initialize` of the pass -/

/-- The body of the instruction loop of `initialize` (lines 36-47) on the pair
`(UEVar[i], VarKill[i])`: a load of `v` enters `UEVar[i]` unless `v` is already in
`VarKill[i]`; a store to `v` enters `VarKill[i]`. -/
def scanInst (acc : Finset Nat × Finset Nat) (inst : Instr) : Finset Nat × Finset Nat :=
  let acc1 : Finset Nat × Finset Nat :=
    match inst with
    | Instr.Load v => if v ∉ acc.2 then (insert v acc.1, acc.2) else acc
    | _ => acc
  match inst with
  | Instr.Store v => (acc1.1, insert v acc1.2)
  | _ => acc1

/-- The loop `for (auto &inst : *BBList[i])` started on `(UEVar[i], VarKill[i])`. -/
def scanBlock (bb : BasicBlock) (ue vk : Finset Nat) : Finset Nat × Finset Nat :=
  bb.insts.foldl scanInst (ue, vk)

/-- One round of the outer loop of `initialize`: block `i` is scanned and entries `i`
of the two vectors are overwritten with the outcome. -/
def initStep (BBList : List BasicBlock)
    (acc : List (Finset Nat) × List (Finset Nat)) (i : Nat) :
    List (Finset Nat) × List (Finset Nat) :=
  let r := scanBlock (BBList.getD i noBlock) (acc.1.getD i ∅) (acc.2.getD i ∅)
  (acc.1.set i r.1, acc.2.set i r.2)

/-- The function `initialize(BBList, UEVar, VarKill)` of the pass (the word itself is
reserved in Lean): returns the two vectors it fills. -/
def initSets (BBList : List BasicBlock) (UEVar VarKill : List (Finset Nat)) :
    List (Finset Nat) × List (Finset Nat) :=
  (List.range BBList.length).foldl (initStep BBList) (UEVar, VarKill)

/-! ## `computeLiveOut` -/

/-- The body of the successor loop of `computeLiveOut` (lines 59-66) for successor `i`:
`dest = LiveOut[i] − VarKill[i]`, `dest1 = dest ∪ UEVar[i]`, and the `set_union` of
line 66 leaves `dest1 ∪ LiveOut[bbIndex]` in `LiveOut[bbIndex]`. -/
def addSucc (bbIndex : Nat) (UEVar VarKill LiveOut : List (Finset Nat)) (i : Nat) :
    List (Finset Nat) :=
  let dest := LiveOut.getD i ∅ \ VarKill.getD i ∅
  let dest1 := dest ∪ UEVar.getD i ∅
  LiveOut.set bbIndex (dest1 ∪ LiveOut.getD bbIndex ∅)

/-- The function `computeLiveOut(bbIndex, BBMap, BBList, UEVar, VarKill, LiveOut)`: the
new value of the vector `LiveOut`, which the code updates through a reference.
`BBMap.at(Succ)` is `Succ` itself, a block being its index. -/
def computeLiveOut (bbIndex : Nat) (BBList : List BasicBlock)
    (UEVar VarKill LiveOut : List (Finset Nat)) : List (Finset Nat) :=
  (BBList.getD bbIndex noBlock).succs.foldl (addSucc bbIndex UEVar VarKill) LiveOut

/-! ## The sweep loop of `runOnFunction` -/

/-- The `for` loop of lines 104-112 over the block indices `order` (the code visits
`0, 1, ..., count-1`): the vector after the sweep and the value of `flag`. -/
def sweepLoop (BBList : List BasicBlock) (UEVar VarKill : List (Finset Nat)) :
    List Nat → List (Finset Nat) → Bool → List (Finset Nat) × Bool
  | [], LiveOut, flag => (LiveOut, flag)
  | i :: rest, LiveOut, flag =>
    let prev := LiveOut.getD i ∅
    let LiveOut1 := computeLiveOut i BBList UEVar VarKill LiveOut
    sweepLoop BBList UEVar VarKill rest LiveOut1
      (if prev ≠ LiveOut1.getD i ∅ then true else flag)

/-- Every variable that occurs in `UEVar` or in the current `LiveOut`. -/
def varUniverse (UEVar LiveOut : List (Finset Nat)) : Finset Nat :=
  (Finset.range UEVar.length).biUnion (fun s => UEVar.getD s ∅) ∪
    (Finset.range LiveOut.length).biUnion (fun b => LiveOut.getD b ∅)

/-- The number of (block, variable) pairs not yet in `LiveOut`. -/
def missing (UEVar LiveOut : List (Finset Nat)) : Nat :=
  ∑ b in Finset.range LiveOut.length, (varUniverse UEVar LiveOut \ LiveOut.getD b ∅).card

/-! ## Reading and writing the vectors -/

theorem getD_set_eq (L : List (Finset Nat)) (i j : Nat) (x : Finset Nat) :
    (L.set i x).getD j ∅ = if j = i ∧ i < L.length then x else L.getD j ∅ := by
  simp only [List.getD_eq_getElem?_getD, List.getElem?_set]
  by_cases hij : i = j
  · subst hij
    by_cases hi : i < L.length
    · simp [hi]
    · simp [hi, List.getElem?_eq_none (Nat.le_of_not_lt hi)]
  · have hji : ¬ j = i := fun h => hij h.symm
    simp [hij, hji]

theorem getD_of_length_le (L : List (Finset Nat)) (j : Nat) (h : L.length ≤ j) :
    L.getD j ∅ = ∅ := by
  simp [List.getD_eq_getElem?_getD, List.getElem?_eq_none h]

theorem lt_length_of_mem_getD {L : List (Finset Nat)} {j v : Nat} (h : v ∈ L.getD j ∅) :
    j < L.length := by
  by_contra hj
  rw [getD_of_length_le L j (Nat.le_of_not_lt hj)] at h
  exact absurd h (Finset.not_mem_empty v)

theorem ext_getD {L L' : List (Finset Nat)} (hlen : L.length = L'.length)
    (h : ∀ j, L.getD j ∅ = L'.getD j ∅) : L = L' := by
  apply List.ext_getElem hlen
  intro n h1 h2
  have := h n
  simpa [List.getD_eq_getElem?_getD, List.getElem?_eq_getElem h1,
    List.getElem?_eq_getElem h2] using this

/-! ## Chaotic iteration: the states reachable by single-block updates -/

/-- The set `LiveIn(i) = (LiveOut[i] − VarKill[i]) ∪ UEVar[i]`, the value of `dest1`
in `computeLiveOut`. -/
def liveIn (UEVar VarKill LiveOut : List (Finset Nat)) (i : Nat) : Finset Nat :=
  (LiveOut.getD i ∅ \ VarKill.getD i ∅) ∪ UEVar.getD i ∅

/-- The vectors obtained from `L` by finitely many updates, each of which unites into
one entry `b` a part of `LiveIn(s)` of a successor `s` of `b`. -/
inductive Reach (BBList : List BasicBlock) (UEVar VarKill : List (Finset Nat))
    (L : List (Finset Nat)) : List (Finset Nat) → Prop where
  | refl : Reach BBList UEVar VarKill L L
  | step (L' : List (Finset Nat)) (b s : Nat) (X : Finset Nat) :
      Reach BBList UEVar VarKill L L' → s ∈ (BBList.getD b noBlock).succs →
      X ⊆ liveIn UEVar VarKill L' s →
      Reach BBList UEVar VarKill L (L'.set b (X ∪ L'.getD b ∅))

section reach

variable {BBList : List BasicBlock} {UEVar VarKill : List (Finset Nat)}

theorem addSucc_eq (b : Nat) (L : List (Finset Nat)) (s : Nat) :
    addSucc b UEVar VarKill L s = L.set b (liveIn UEVar VarKill L s ∪ L.getD b ∅) := rfl

theorem liveIn_mono {L L' : List (Finset Nat)} (h : ∀ j, L.getD j ∅ ⊆ L'.getD j ∅)
    (s : Nat) : liveIn UEVar VarKill L s ⊆ liveIn UEVar VarKill L' s := by
  unfold liveIn
  exact Finset.union_subset_union (Finset.sdiff_subset_sdiff (h s) (Finset.Subset.refl _)) (Finset.Subset.refl _)

theorem set_union_mono (L : List (Finset Nat)) (b : Nat) (X : Finset Nat) (j : Nat) :
    L.getD j ∅ ⊆ (L.set b (X ∪ L.getD b ∅)).getD j ∅ := by
  rw [getD_set_eq]
  split
  · next h => rw [h.1]; exact Finset.subset_union_right
  · exact Finset.Subset.refl _

theorem Reach.length_eq {L L' : List (Finset Nat)} (h : Reach BBList UEVar VarKill L L') :
    L'.length = L.length := by
  induction h with
  | refl => rfl
  | step L' b s X _ _ _ ih => simpa using ih

theorem Reach.mono {L L' : List (Finset Nat)} (h : Reach BBList UEVar VarKill L L')
    (j : Nat) : L.getD j ∅ ⊆ L'.getD j ∅ := by
  induction h with
  | refl => exact Finset.Subset.refl _
  | step L' b s X _ _ _ ih => exact ih.trans (set_union_mono L' b X j)

theorem Reach.trans {L L' L'' : List (Finset Nat)} (h : Reach BBList UEVar VarKill L L')
    (h' : Reach BBList UEVar VarKill L' L'') : Reach BBList UEVar VarKill L L'' := by
  induction h' with
  | refl => exact h
  | step M b s X _ hs hX ih => exact Reach.step M b s X ih hs hX

/-- Any property of (block, variable) pairs that the liveness equations propagate and
that holds of the start vector holds of every reachable vector. -/
theorem Reach.invariant {L L' : List (Finset Nat)} (h : Reach BBList UEVar VarKill L L')
    (P : Nat → Nat → Prop)
    (hUE : ∀ b s v, s ∈ (BBList.getD b noBlock).succs → v ∈ UEVar.getD s ∅ → P b v)
    (hLO : ∀ b s v, s ∈ (BBList.getD b noBlock).succs → P s v → v ∉ VarKill.getD s ∅ → P b v)
    (hL : ∀ b v, v ∈ L.getD b ∅ → P b v) :
    ∀ b v, v ∈ L'.getD b ∅ → P b v := by
  induction h with
  | refl => exact hL
  | step L' b s X _ hs hX ih =>
    intro j v hv
    rw [getD_set_eq] at hv
    split at hv
    · next hj =>
      rw [hj.1]
      rcases Finset.mem_union.1 hv with hv | hv
      · have := hX hv
        unfold liveIn at this
        rcases Finset.mem_union.1 this with h1 | h1
        · have h2 := Finset.mem_sdiff.1 h1
          exact hLO b s v hs (ih s v h2.1) h2.2
        · exact hUE b s v hs h1
      · exact ih b v hv
    · exact ih j v hv

/-- Reachable vectors keep the property that every member of `LiveOut[b]` is
justified by some successor of `b`. -/
theorem Reach.sound {L L' : List (Finset Nat)} (h : Reach BBList UEVar VarKill L L')
    (hL : ∀ b v, v ∈ L.getD b ∅ →
      ∃ s ∈ (BBList.getD b noBlock).succs, v ∈ liveIn UEVar VarKill L s) :
    ∀ b v, v ∈ L'.getD b ∅ →
      ∃ s ∈ (BBList.getD b noBlock).succs, v ∈ liveIn UEVar VarKill L' s := by
  induction h with
  | refl => exact hL
  | step L' b s X _ hs hX ih =>
    have hm : ∀ t, liveIn UEVar VarKill L' t ⊆
        liveIn UEVar VarKill (L'.set b (X ∪ L'.getD b ∅)) t :=
      liveIn_mono (set_union_mono L' b X)
    intro j v hv
    rw [getD_set_eq] at hv
    split at hv
    · next hj =>
      rw [hj.1]
      rcases Finset.mem_union.1 hv with hv | hv
      · exact ⟨s, hs, hm s (hX hv)⟩
      · obtain ⟨t, ht, hvt⟩ := ih b v hv
        exact ⟨t, ht, hm t hvt⟩
    · obtain ⟨t, ht, hvt⟩ := ih j v hv
      exact ⟨t, ht, hm t hvt⟩

theorem foldl_addSucc_reach (b : Nat) (ss : List Nat)
    (hss : ∀ s ∈ ss, s ∈ (BBList.getD b noBlock).succs) (L : List (Finset Nat)) :
    Reach BBList UEVar VarKill L (ss.foldl (addSucc b UEVar VarKill) L) := by
  induction ss generalizing L with
  | nil => exact Reach.refl
  | cons s rest ih =>
    have h1 : Reach BBList UEVar VarKill L (addSucc b UEVar VarKill L s) := by
      rw [addSucc_eq]
      exact Reach.step L b s _ Reach.refl (hss s (List.mem_cons_self s rest))
        (Finset.Subset.refl _)
    exact h1.trans (ih (fun t ht => hss t (List.mem_cons_of_mem s ht)) _)

theorem computeLiveOut_reach (b : Nat) (L : List (Finset Nat)) :
    Reach BBList UEVar VarKill L (computeLiveOut b BBList UEVar VarKill L) :=
  foldl_addSucc_reach b _ (fun _ h => h) L

theorem foldl_addSucc_frame (b : Nat) (ss : List Nat) (L : List (Finset Nat)) (j : Nat)
    (hj : j ≠ b) : (ss.foldl (addSucc b UEVar VarKill) L).getD j ∅ = L.getD j ∅ := by
  induction ss generalizing L with
  | nil => rfl
  | cons s rest ih =>
    rw [List.foldl_cons, ih, addSucc_eq, getD_set_eq, if_neg (fun h => hj h.1)]

theorem computeLiveOut_frame (b : Nat) (L : List (Finset Nat)) (j : Nat) (hj : j ≠ b) :
    (computeLiveOut b BBList UEVar VarKill L).getD j ∅ = L.getD j ∅ :=
  foldl_addSucc_frame b _ L j hj

/-- A single-block update that leaves entry `b` as it was leaves the whole vector as
it was. -/
theorem computeLiveOut_eq_self (b : Nat) (L : List (Finset Nat))
    (h : L.getD b ∅ = (computeLiveOut b BBList UEVar VarKill L).getD b ∅) :
    computeLiveOut b BBList UEVar VarKill L = L := by
  apply ext_getD (computeLiveOut_reach b L).length_eq
  intro j
  by_cases hj : j = b
  · rw [hj, ← h]
  · exact computeLiveOut_frame b L j hj

theorem sweepLoop_reach (order : List Nat) (L : List (Finset Nat)) (flag : Bool) :
    Reach BBList UEVar VarKill L (sweepLoop BBList UEVar VarKill order L flag).1 := by
  induction order generalizing L flag with
  | nil => exact Reach.refl
  | cons i rest ih =>
    rw [sweepLoop]
    exact (computeLiveOut_reach i L).trans (ih _ _)

/-- When the sweep leaves `flag` false, it started false and the vector is unchanged. -/
theorem sweepLoop_flag_false (order : List Nat) (L : List (Finset Nat)) (flag : Bool)
    (h : (sweepLoop BBList UEVar VarKill order L flag).2 = false) :
    (sweepLoop BBList UEVar VarKill order L flag).1 = L ∧ flag = false := by
  induction order generalizing L flag with
  | nil => exact ⟨rfl, h⟩
  | cons i rest ih =>
    rw [sweepLoop] at h ⊢
    obtain ⟨h1, h2⟩ := ih _ _ h
    by_cases hc : L.getD i ∅ ≠ (computeLiveOut i BBList UEVar VarKill L).getD i ∅
    · rw [if_pos hc] at h2
      exact absurd h2 (by decide)
    · have hc' := not_not.1 hc
      rw [if_neg hc] at h2
      rw [h1]
      exact ⟨computeLiveOut_eq_self i L hc', h2⟩

/-- When the sweep leaves `flag` true, it started true or some entry grew. -/
theorem sweepLoop_flag_true (order : List Nat) (L : List (Finset Nat)) (flag : Bool)
    (h : (sweepLoop BBList UEVar VarKill order L flag).2 = true) :
    flag = true ∨
      ∃ j, L.getD j ∅ ≠ (sweepLoop BBList UEVar VarKill order L flag).1.getD j ∅ := by
  induction order generalizing L flag with
  | nil => exact Or.inl h
  | cons i rest ih =>
    rw [sweepLoop] at h ⊢
    have hr1 := @computeLiveOut_reach BBList UEVar VarKill i L
    have hr2 := @sweepLoop_reach BBList UEVar VarKill
      rest (computeLiveOut i BBList UEVar VarKill L)
      (if L.getD i ∅ ≠ (computeLiveOut i BBList UEVar VarKill L).getD i ∅ then true else flag)
    rcases ih _ _ h with h1 | ⟨j, hj⟩
    · by_cases hc : L.getD i ∅ ≠ (computeLiveOut i BBList UEVar VarKill L).getD i ∅
      · refine Or.inr ⟨i, fun heq => hc ?_⟩
        apply Finset.Subset.antisymm (hr1.mono i)
        rw [heq]
        exact hr2.mono i
      · rw [if_neg hc] at h1
        exact Or.inl h1
    · refine Or.inr ⟨j, fun heq => hj ?_⟩
      apply Finset.Subset.antisymm (hr2.mono j)
      rw [← heq]
      exact hr1.mono j

theorem mem_varUniverse (UE L : List (Finset Nat)) (v : Nat) :
    v ∈ varUniverse UE L ↔ (∃ s, v ∈ UE.getD s ∅) ∨ (∃ b, v ∈ L.getD b ∅) := by
  unfold varUniverse
  simp only [Finset.mem_union, Finset.mem_biUnion, Finset.mem_range]
  constructor
  · rintro (⟨s, _, h⟩ | ⟨b, _, h⟩)
    · exact Or.inl ⟨s, h⟩
    · exact Or.inr ⟨b, h⟩
  · rintro (⟨s, h⟩ | ⟨b, h⟩)
    · exact Or.inl ⟨s, lt_length_of_mem_getD h, h⟩
    · exact Or.inr ⟨b, lt_length_of_mem_getD h, h⟩

theorem Reach.subset_varUniverse {L L' : List (Finset Nat)}
    (h : Reach BBList UEVar VarKill L L') (b v : Nat) (hv : v ∈ L'.getD b ∅) :
    v ∈ varUniverse UEVar L :=
  h.invariant (fun _ v => v ∈ varUniverse UEVar L)
    (fun _ s v _ hv => (mem_varUniverse UEVar L v).2 (Or.inl ⟨s, hv⟩))
    (fun _ _ _ _ hv _ => hv)
    (fun b v hv => (mem_varUniverse UEVar L v).2 (Or.inr ⟨b, hv⟩)) b v hv

theorem Reach.varUniverse_eq {L L' : List (Finset Nat)}
    (h : Reach BBList UEVar VarKill L L') : varUniverse UEVar L' = varUniverse UEVar L := by
  ext v
  rw [mem_varUniverse, mem_varUniverse]
  constructor
  · rintro (h1 | ⟨b, hb⟩)
    · exact Or.inl h1
    · exact (mem_varUniverse UEVar L v).1 (h.subset_varUniverse b v hb)
  · rintro (h1 | ⟨b, hb⟩)
    · exact Or.inl h1
    · exact Or.inr ⟨b, h.mono b hb⟩

/-- A reachable vector that differs from the start vector has fewer missing pairs. -/
theorem Reach.missing_lt {L L' : List (Finset Nat)} (h : Reach BBList UEVar VarKill L L')
    (hne : ∃ j, L.getD j ∅ ≠ L'.getD j ∅) : missing UEVar L' < missing UEVar L := by
  unfold missing
  rw [h.varUniverse_eq, h.length_eq]
  obtain ⟨j, hj⟩ := hne
  have hsub : ∀ b, varUniverse UEVar L \ L'.getD b ∅ ⊆ varUniverse UEVar L \ L.getD b ∅ :=
    fun b => Finset.sdiff_subset_sdiff (Finset.Subset.refl _) (h.mono b)
  have hnot : ¬ L'.getD j ∅ ⊆ L.getD j ∅ :=
    fun hs => hj (Finset.Subset.antisymm (h.mono j) hs)
  obtain ⟨v, hv1, hv2⟩ := Finset.not_subset.1 hnot
  have hjlt : j < L.length := by
    have := lt_length_of_mem_getD hv1
    rwa [h.length_eq] at this
  apply Finset.sum_lt_sum
  · intro b _
    exact Finset.card_le_card (hsub b)
  · refine ⟨j, Finset.mem_range.2 hjlt, Finset.card_lt_card ?_⟩
    refine Finset.ssubset_iff_subset_ne.2 ⟨hsub j, fun heq => ?_⟩
    have hm : v ∈ varUniverse UEVar L \ L.getD j ∅ :=
      Finset.mem_sdiff.2 ⟨h.subset_varUniverse j v hv1, hv2⟩
    rw [← heq] at hm
    exact (Finset.mem_sdiff.1 hm).2 hv1

theorem sweepLoop_missing_lt (order : List Nat) (L : List (Finset Nat))
    (h : (sweepLoop BBList UEVar VarKill order L false).2 = true) :
    missing UEVar (sweepLoop BBList UEVar VarKill order L false).1 < missing UEVar L := by
  apply (sweepLoop_reach order L false).missing_lt
  rcases sweepLoop_flag_true order L false h with h1 | h1
  · exact absurd h1 (by simp)
  · exact h1

end reach

/-- The loop `while (flag)` of `runOnFunction` (lines 100-113) started on `LiveOut`,
each sweep visiting the block indices `order`: the final vector and the number of
sweeps executed, the last one (which leaves `flag` false) included. -/
def whileLoop (BBList : List BasicBlock) (UEVar VarKill : List (Finset Nat))
    (order : List Nat) (LiveOut : List (Finset Nat)) : List (Finset Nat) × Nat :=
  if h : (sweepLoop BBList UEVar VarKill order LiveOut false).2 = true then
    let r := whileLoop BBList UEVar VarKill order
      (sweepLoop BBList UEVar VarKill order LiveOut false).1
    (r.1, r.2 + 1)
  else
    ((sweepLoop BBList UEVar VarKill order LiveOut false).1, 1)
termination_by missing UEVar LiveOut
decreasing_by exact sweepLoop_missing_lt order LiveOut h

/-- The same loop with a bound on the number of sweeps: `none` when `fuel` sweeps did
not suffice to leave `flag` false. -/
def whileLoopFuel (BBList : List BasicBlock) (UEVar VarKill : List (Finset Nat))
    (order : List Nat) : Nat → List (Finset Nat) → Option (List (Finset Nat) × Nat)
  | 0, _ => none
  | fuel + 1, LiveOut =>
    if (sweepLoop BBList UEVar VarKill order LiveOut false).2 = true then
      (whileLoopFuel BBList UEVar VarKill order fuel
        (sweepLoop BBList UEVar VarKill order LiveOut false).1).map
        (fun r => (r.1, r.2 + 1))
    else
      some ((sweepLoop BBList UEVar VarKill order LiveOut false).1, 1)

/-- What `runOnFunction` prints for the routine, block by block, and the number of
sweeps its loop executed. -/
structure Analysis where
  UEVar : List (Finset Nat)
  VarKill : List (Finset Nat)
  LiveOut : List (Finset Nat)
  sweeps : Nat

/-- Lines 81-113 of `runOnFunction`: the three vectors are created with `count` empty
sets, `initialize` fills `UEVar` and `VarKill`, and the sweep loop fills `LiveOut`. -/
def analyse (BBList : List BasicBlock) : Analysis :=
  let count := BBList.length
  let sets := initSets BBList (List.replicate count ∅) (List.replicate count ∅)
  let r := whileLoop BBList sets.1 sets.2 (List.range BBList.length) (List.replicate count ∅)
  { UEVar := sets.1, VarKill := sets.2, LiveOut := r.1, sweeps := r.2 }

/-- The name of the routine the pass analyses. -/
def func_name : String := "test"

/-- The function `runOnFunction`: nothing is computed for a routine whose name is not
`func_name`; otherwise the analysis is what is written to the output file. -/
def runOnFunction (F : LLVMFunction) : Option Analysis :=
  if F.name ≠ func_name then none else some (analyse F.blocks)

/-! ## The snapshot-per-sweep variant -/

/-- The successor-loop body when the successor is read from the snapshot `snap` taken
at the start of the sweep instead of from the current `LiveOut`. -/
def addSuccSnapshot (bbIndex : Nat) (UEVar VarKill snap LiveOut : List (Finset Nat))
    (i : Nat) : List (Finset Nat) :=
  let dest := snap.getD i ∅ \ VarKill.getD i ∅
  let dest1 := dest ∪ UEVar.getD i ∅
  LiveOut.set bbIndex (dest1 ∪ LiveOut.getD bbIndex ∅)

/-- The single-block update of the snapshot variant. -/
def computeLiveOutSnapshot (bbIndex : Nat) (BBList : List BasicBlock)
    (UEVar VarKill snap LiveOut : List (Finset Nat)) : List (Finset Nat) :=
  (BBList.getD bbIndex noBlock).succs.foldl (addSuccSnapshot bbIndex UEVar VarKill snap) LiveOut

/-- One sweep of the snapshot variant: every block reads `snap`. -/
def snapshotSweepLoop (BBList : List BasicBlock) (UEVar VarKill snap : List (Finset Nat)) :
    List Nat → List (Finset Nat) → Bool → List (Finset Nat) × Bool
  | [], LiveOut, flag => (LiveOut, flag)
  | i :: rest, LiveOut, flag =>
    let prev := LiveOut.getD i ∅
    let LiveOut1 := computeLiveOutSnapshot i BBList UEVar VarKill snap LiveOut
    snapshotSweepLoop BBList UEVar VarKill snap rest LiveOut1
      (if prev ≠ LiveOut1.getD i ∅ then true else flag)

section snapshot

variable {BBList : List BasicBlock} {UEVar VarKill : List (Finset Nat)}

theorem addSuccSnapshot_eq (b : Nat) (snap L : List (Finset Nat)) (s : Nat) :
    addSuccSnapshot b UEVar VarKill snap L s =
      L.set b (liveIn UEVar VarKill snap s ∪ L.getD b ∅) := rfl

theorem foldl_addSuccSnapshot_reach (b : Nat) (ss : List Nat)
    (hss : ∀ s ∈ ss, s ∈ (BBList.getD b noBlock).succs) (snap L : List (Finset Nat))
    (h : Reach BBList UEVar VarKill snap L) :
    Reach BBList UEVar VarKill snap (ss.foldl (addSuccSnapshot b UEVar VarKill snap) L) := by
  induction ss generalizing L with
  | nil => exact h
  | cons s rest ih =>
    apply ih (fun t ht => hss t (List.mem_cons_of_mem s ht))
    rw [addSuccSnapshot_eq]
    exact Reach.step L b s _ h (hss s (List.mem_cons_self s rest)) (liveIn_mono h.mono s)

theorem computeLiveOutSnapshot_reach (b : Nat) (snap L : List (Finset Nat))
    (h : Reach BBList UEVar VarKill snap L) :
    Reach BBList UEVar VarKill snap (computeLiveOutSnapshot b BBList UEVar VarKill snap L) :=
  foldl_addSuccSnapshot_reach b _ (fun _ h => h) snap L h

theorem foldl_addSuccSnapshot_length (b : Nat) (ss : List Nat) (snap L : List (Finset Nat)) :
    (ss.foldl (addSuccSnapshot b UEVar VarKill snap) L).length = L.length := by
  induction ss generalizing L with
  | nil => rfl
  | cons s rest ih => rw [List.foldl_cons, ih, addSuccSnapshot_eq, List.length_set]

theorem foldl_addSuccSnapshot_mono (b : Nat) (ss : List Nat) (snap L : List (Finset Nat))
    (j : Nat) : L.getD j ∅ ⊆ (ss.foldl (addSuccSnapshot b UEVar VarKill snap) L).getD j ∅ := by
  induction ss generalizing L with
  | nil => exact Finset.Subset.refl _
  | cons s rest ih =>
    rw [List.foldl_cons]
    refine Finset.Subset.trans ?_ (ih _)
    rw [addSuccSnapshot_eq]
    exact set_union_mono L b _ j

theorem foldl_addSuccSnapshot_frame (b : Nat) (ss : List Nat) (snap L : List (Finset Nat))
    (j : Nat) (hj : j ≠ b) :
    (ss.foldl (addSuccSnapshot b UEVar VarKill snap) L).getD j ∅ = L.getD j ∅ := by
  induction ss generalizing L with
  | nil => rfl
  | cons s rest ih =>
    rw [List.foldl_cons, ih, addSuccSnapshot_eq, getD_set_eq, if_neg (fun h => hj h.1)]

theorem computeLiveOutSnapshot_eq_self (b : Nat) (snap L : List (Finset Nat))
    (h : L.getD b ∅ = (computeLiveOutSnapshot b BBList UEVar VarKill snap L).getD b ∅) :
    computeLiveOutSnapshot b BBList UEVar VarKill snap L = L := by
  apply ext_getD (foldl_addSuccSnapshot_length b _ snap L)
  intro j
  by_cases hj : j = b
  · rw [hj]
    exact h.symm
  · exact foldl_addSuccSnapshot_frame b _ snap L j hj

theorem snapshotSweepLoop_reach (order : List Nat) (snap L : List (Finset Nat)) (flag : Bool)
    (h : Reach BBList UEVar VarKill snap L) :
    Reach BBList UEVar VarKill snap
      (snapshotSweepLoop BBList UEVar VarKill snap order L flag).1 := by
  induction order generalizing L flag with
  | nil => exact h
  | cons i rest ih =>
    rw [snapshotSweepLoop]
    exact ih _ _ (computeLiveOutSnapshot_reach i snap L h)

theorem snapshotSweepLoop_mono (order : List Nat) (snap L : List (Finset Nat)) (flag : Bool)
    (j : Nat) :
    L.getD j ∅ ⊆ (snapshotSweepLoop BBList UEVar VarKill snap order L flag).1.getD j ∅ := by
  induction order generalizing L flag with
  | nil => exact Finset.Subset.refl _
  | cons i rest ih =>
    rw [snapshotSweepLoop]
    exact Finset.Subset.trans (foldl_addSuccSnapshot_mono i _ snap L j) (ih _ _)

theorem snapshotSweepLoop_flag_false (order : List Nat) (snap L : List (Finset Nat))
    (flag : Bool)
    (h : (snapshotSweepLoop BBList UEVar VarKill snap order L flag).2 = false) :
    (snapshotSweepLoop BBList UEVar VarKill snap order L flag).1 = L ∧ flag = false := by
  induction order generalizing L flag with
  | nil => exact ⟨rfl, h⟩
  | cons i rest ih =>
    rw [snapshotSweepLoop] at h ⊢
    obtain ⟨h1, h2⟩ := ih _ _ h
    by_cases hc : L.getD i ∅ ≠ (computeLiveOutSnapshot i BBList UEVar VarKill snap L).getD i ∅
    · rw [if_pos hc] at h2
      exact absurd h2 (by decide)
    · have hc' := not_not.1 hc
      rw [if_neg hc] at h2
      rw [h1]
      exact ⟨computeLiveOutSnapshot_eq_self i snap L hc', h2⟩

theorem snapshotSweepLoop_flag_true (order : List Nat) (snap L : List (Finset Nat))
    (flag : Bool)
    (h : (snapshotSweepLoop BBList UEVar VarKill snap order L flag).2 = true) :
    flag = true ∨
      ∃ j, L.getD j ∅ ≠ (snapshotSweepLoop BBList UEVar VarKill snap order L flag).1.getD j ∅ := by
  induction order generalizing L flag with
  | nil => exact Or.inl h
  | cons i rest ih =>
    rw [snapshotSweepLoop] at h ⊢
    have hr1 := @foldl_addSuccSnapshot_mono UEVar VarKill i
      (BBList.getD i noBlock).succs snap L
    have hr2 := @snapshotSweepLoop_mono BBList UEVar VarKill rest snap (computeLiveOutSnapshot i BBList UEVar VarKill snap L)
      (if L.getD i ∅ ≠ (computeLiveOutSnapshot i BBList UEVar VarKill snap L).getD i ∅
        then true else flag)
    rcases ih _ _ h with h1 | ⟨j, hj⟩
    · by_cases hc : L.getD i ∅ ≠
          (computeLiveOutSnapshot i BBList UEVar VarKill snap L).getD i ∅
      · refine Or.inr ⟨i, fun heq => hc ?_⟩
        apply Finset.Subset.antisymm (hr1 i)
        rw [heq]
        exact hr2 i
      · rw [if_neg hc] at h1
        exact Or.inl h1
    · refine Or.inr ⟨j, fun heq => hj ?_⟩
      apply Finset.Subset.antisymm (hr2 j)
      rw [← heq]
      exact hr1 j

theorem snapshotSweepLoop_missing_lt (order : List Nat) (L : List (Finset Nat))
    (h : (snapshotSweepLoop BBList UEVar VarKill L order L false).2 = true) :
    missing UEVar (snapshotSweepLoop BBList UEVar VarKill L order L false).1 <
      missing UEVar L := by
  apply (snapshotSweepLoop_reach order L L false Reach.refl).missing_lt
  rcases snapshotSweepLoop_flag_true order L L false h with h1 | h1
  · exact absurd h1 (by simp)
  · exact h1

end snapshot

/-- The snapshot-per-sweep solver: sweeps, each reading the vector as it was at the
start of that sweep, until a sweep leaves `flag` false. -/
def snapshotWhileLoop (BBList : List BasicBlock) (UEVar VarKill : List (Finset Nat))
    (order : List Nat) (LiveOut : List (Finset Nat)) : List (Finset Nat) × Nat :=
  if h : (snapshotSweepLoop BBList UEVar VarKill LiveOut order LiveOut false).2 = true then
    let r := snapshotWhileLoop BBList UEVar VarKill order
      (snapshotSweepLoop BBList UEVar VarKill LiveOut order LiveOut false).1
    (r.1, r.2 + 1)
  else
    ((snapshotSweepLoop BBList UEVar VarKill LiveOut order LiveOut false).1, 1)
termination_by missing UEVar LiveOut
decreasing_by exact snapshotSweepLoop_missing_lt order LiveOut h

/-! ## Paths and variables of a routine -/

/-- The blocks `p = [s1, ..., sn]` form a path `b → s1 → ... → sn` with `n ≥ 1` along
successor edges, `v` is in `UEVar` of the last block `sn`, and `v` is in `VarKill` of
none of `s1, ..., s(n-1)`. -/
def liveAlong (BBList : List BasicBlock) (UEVar VarKill : List (Finset Nat)) (v : Nat) :
    Nat → List Nat → Prop
  | _, [] => False
  | b, [s] => s ∈ (BBList.getD b noBlock).succs ∧ v ∈ UEVar.getD s ∅
  | b, s :: t :: rest =>
    s ∈ (BBList.getD b noBlock).succs ∧ v ∉ VarKill.getD s ∅ ∧
      liveAlong BBList UEVar VarKill v s (t :: rest)

/-- The variable an instruction reads or writes, if any. -/
def instVars : Instr → Finset Nat
  | Instr.Load v => {v}
  | Instr.Store v => {v}
  | Instr.Other => ∅

/-- The distinct variables read or written in the routine. -/
def allVars (BBList : List BasicBlock) : Finset Nat :=
  BBList.foldr (fun bb acc => bb.insts.foldr (fun inst a => instVars inst ∪ a) acc) ∅

/-! ## The loop: unfolding, reachability, stability -/

section loop

variable {BBList : List BasicBlock} {UEVar VarKill : List (Finset Nat)}

theorem whileLoop_eq (order : List Nat) (L : List (Finset Nat)) :
    whileLoop BBList UEVar VarKill order L =
      if (sweepLoop BBList UEVar VarKill order L false).2 = true then
        ((whileLoop BBList UEVar VarKill order
            (sweepLoop BBList UEVar VarKill order L false).1).1,
          (whileLoop BBList UEVar VarKill order
            (sweepLoop BBList UEVar VarKill order L false).1).2 + 1)
      else ((sweepLoop BBList UEVar VarKill order L false).1, 1) := by
  rw [whileLoop]
  split <;> rfl

/-- Induction along the sweeps of the loop. -/
theorem whileLoop_induction (order : List Nat) (motive : List (Finset Nat) → Prop)
    (hchanged : ∀ L, (sweepLoop BBList UEVar VarKill order L false).2 = true →
      motive (sweepLoop BBList UEVar VarKill order L false).1 → motive L)
    (hstable : ∀ L, (sweepLoop BBList UEVar VarKill order L false).2 = false → motive L)
    (L : List (Finset Nat)) : motive L := by
  suffices H : ∀ m L, missing UEVar L = m → motive L from H _ L rfl
  intro m
  induction m using Nat.strong_induction_on with
  | _ m ih =>
    intro L hm
    by_cases h : (sweepLoop BBList UEVar VarKill order L false).2 = true
    · exact hchanged L h (ih _ (hm ▸ sweepLoop_missing_lt order L h) _ rfl)
    · exact hstable L (Bool.eq_false_iff.2 h)

theorem whileLoop_reach (order : List Nat) (L : List (Finset Nat)) :
    Reach BBList UEVar VarKill L (whileLoop BBList UEVar VarKill order L).1 := by
  induction L using @whileLoop_induction BBList UEVar VarKill order with
  | hchanged L h ih =>
    rw [whileLoop_eq, if_pos h]
    exact (sweepLoop_reach order L false).trans ih
  | hstable L h =>
    rw [whileLoop_eq, if_neg (by simp [h])]
    exact sweepLoop_reach order L false

/-- The vector the loop returns is left unchanged, with `flag` false, by one more sweep. -/
theorem whileLoop_stable (order : List Nat) (L : List (Finset Nat)) :
    sweepLoop BBList UEVar VarKill order (whileLoop BBList UEVar VarKill order L).1 false =
      ((whileLoop BBList UEVar VarKill order L).1, false) := by
  induction L using @whileLoop_induction BBList UEVar VarKill order with
  | hchanged L h ih =>
    rw [whileLoop_eq, if_pos h]
    exact ih
  | hstable L h =>
    rw [whileLoop_eq, if_neg (by simp [h])]
    have h1 := (sweepLoop_flag_false order L false h).1
    simp only [h1]
    exact Prod.ext h1 h

end loop

/-! ## The local sets -/

section localsets

theorem split_cons_iff (x : Instr) (rest : List Instr) (v : Nat) :
    (∃ pre post, x :: rest = pre ++ Instr.Load v :: post ∧ Instr.Store v ∉ pre) ↔
      x = Instr.Load v ∨
        (x ≠ Instr.Store v ∧
          ∃ pre post, rest = pre ++ Instr.Load v :: post ∧ Instr.Store v ∉ pre) := by
  constructor
  · rintro ⟨pre, post, heq, hpre⟩
    cases pre with
    | nil =>
      left
      simpa using (List.cons.inj heq).1
    | cons y pre' =>
      right
      have h1 := List.cons.inj heq
      refine ⟨?_, pre', post, h1.2, fun hmem => hpre (List.mem_cons_of_mem y hmem)⟩
      intro hx
      apply hpre
      rw [← h1.1, hx]
      exact List.mem_cons_self _ _
  · rintro (hx | ⟨hx, pre, post, heq, hpre⟩)
    · exact ⟨[], rest, by rw [hx]; rfl, List.not_mem_nil _⟩
    · refine ⟨x :: pre, post, by rw [heq]; rfl, ?_⟩
      intro hmem
      rcases List.mem_cons.1 hmem with h | h
      · exact hx h.symm
      · exact hpre h

/-- The running `VarKill` after a scan: what it held before, and every stored variable. -/
theorem mem_scan_varKill (insts : List Instr) (acc : Finset Nat × Finset Nat) (v : Nat) :
    v ∈ (insts.foldl scanInst acc).2 ↔ v ∈ acc.2 ∨ Instr.Store v ∈ insts := by
  induction insts generalizing acc with
  | nil => simp
  | cons x rest ih =>
    rw [List.foldl_cons, ih]
    cases x with
    | Load w =>
      by_cases hw : w ∈ acc.2 <;> simp [scanInst, hw]
    | Store w =>
      simp only [scanInst, Finset.mem_insert, List.mem_cons, Instr.Store.injEq]
      tauto
    | Other => simp [scanInst]

/-- The running `UEVar` after a scan: what it held before, and every variable not yet
killed at the start that is loaded at a position with no earlier store to it. -/
theorem mem_scan_ueVar (insts : List Instr) (acc : Finset Nat × Finset Nat) (v : Nat) :
    v ∈ (insts.foldl scanInst acc).1 ↔
      v ∈ acc.1 ∨ (v ∉ acc.2 ∧
        ∃ pre post, insts = pre ++ Instr.Load v :: post ∧ Instr.Store v ∉ pre) := by
  induction insts generalizing acc with
  | nil => simp
  | cons x rest ih =>
    rw [List.foldl_cons, ih, split_cons_iff]
    cases x with
    | Load w =>
      by_cases hw : w ∈ acc.2
      · simp only [scanInst, hw, not_true_eq_false, if_false, Instr.Load.injEq, ne_eq,
          not_false_eq_true, true_and, reduceCtorEq]
        constructor
        · rintro (h | ⟨h1, h2⟩)
          · exact Or.inl h
          · exact Or.inr ⟨h1, Or.inr h2⟩
        · rintro (h | ⟨h1, h2 | h2⟩)
          · exact Or.inl h
          · rw [h2] at hw
            exact absurd hw h1
          · exact Or.inr ⟨h1, h2⟩
      · simp only [scanInst, hw, not_false_eq_true, if_true, Finset.mem_insert,
          Instr.Load.injEq, ne_eq, true_and, reduceCtorEq]
        constructor
        · rintro ((h | h) | ⟨h1, h2⟩)
          · rw [h]
            exact Or.inr ⟨hw, Or.inl rfl⟩
          · exact Or.inl h
          · exact Or.inr ⟨h1, Or.inr h2⟩
        · rintro (h | ⟨h1, h2 | h2⟩)
          · exact Or.inl (Or.inr h)
          · exact Or.inl (Or.inl h2.symm)
          · exact Or.inr ⟨h1, h2⟩
    | Store w =>
      simp only [scanInst, Finset.mem_insert, not_or, Instr.Store.injEq, ne_eq,
        reduceCtorEq, false_or]
      constructor
      · rintro (h | ⟨⟨h1, h2⟩, h3⟩)
        · exact Or.inl h
        · exact Or.inr ⟨h2, fun h => h1 h.symm, h3⟩
      · rintro (h | ⟨h1, h2, h3⟩)
        · exact Or.inl h
        · exact Or.inr ⟨⟨fun h => h2 h.symm, h1⟩, h3⟩
    | Other =>
      simp only [scanInst, ne_eq, reduceCtorEq, not_false_eq_true, true_and, false_or]

/-- The first occurrence of a load of `v` with no earlier store to `v` has no earlier
access to `v` at all. -/
theorem first_access_of_split (insts : List Instr) (v : Nat)
    (h : ∃ pre post, insts = pre ++ Instr.Load v :: post ∧ Instr.Store v ∉ pre) :
    ∃ pre post, insts = pre ++ Instr.Load v :: post ∧ Instr.Store v ∉ pre ∧
      Instr.Load v ∉ pre := by
  induction insts with
  | nil =>
    obtain ⟨pre, post, heq, _⟩ := h
    cases pre <;> simp at heq
  | cons x rest ih =>
    by_cases hx : x = Instr.Load v
    · exact ⟨[], rest, by rw [hx]; rfl, List.not_mem_nil _, List.not_mem_nil _⟩
    · rcases (split_cons_iff x rest v).1 h with h1 | ⟨h1, h2⟩
      · exact absurd h1 hx
      · obtain ⟨pre, post, heq, hs, hl⟩ := ih h2
        refine ⟨x :: pre, post, by rw [heq]; rfl, ?_, ?_⟩
        · intro hmem
          rcases List.mem_cons.1 hmem with h | h
          · exact h1 h.symm
          · exact hs h
        · intro hmem
          rcases List.mem_cons.1 hmem with h | h
          · exact hx h.symm
          · exact hl h

/-- The outer loop of `initialize` over distinct in-range indices: entry `j` of each
vector holds the scan of block `j` if `j` was visited and is untouched otherwise. -/
theorem foldl_initStep_getD (BBList : List BasicBlock) (idx : List Nat) (hnd : idx.Nodup)
    (acc : List (Finset Nat) × List (Finset Nat))
    (h1 : ∀ i ∈ idx, i < acc.1.length) (h2 : ∀ i ∈ idx, i < acc.2.length) (j : Nat) :
    ((idx.foldl (initStep BBList) acc).1.getD j ∅, (idx.foldl (initStep BBList) acc).2.getD j ∅) =
      if j ∈ idx then scanBlock (BBList.getD j noBlock) (acc.1.getD j ∅) (acc.2.getD j ∅)
      else (acc.1.getD j ∅, acc.2.getD j ∅) := by
  induction idx generalizing acc with
  | nil => simp
  | cons i rest ih =>
    have hnd' := (List.nodup_cons.1 hnd)
    have hi1 := h1 i (List.mem_cons_self _ _)
    have hi2 := h2 i (List.mem_cons_self _ _)
    rw [List.foldl_cons, ih hnd'.2]
    · simp only [initStep, getD_set_eq, List.mem_cons]
      by_cases hj : j = i
      · subst hj
        simp [hnd'.1, hi1, hi2]
      · by_cases hjr : j ∈ rest <;> simp [hj, hjr]
    · intro k hk
      simpa [initStep] using h1 k (List.mem_cons_of_mem _ hk)
    · intro k hk
      simpa [initStep] using h2 k (List.mem_cons_of_mem _ hk)

theorem foldl_initStep_length (BBList : List BasicBlock) (idx : List Nat)
    (acc : List (Finset Nat) × List (Finset Nat)) :
    (idx.foldl (initStep BBList) acc).1.length = acc.1.length ∧
      (idx.foldl (initStep BBList) acc).2.length = acc.2.length := by
  induction idx generalizing acc with
  | nil => exact ⟨rfl, rfl⟩
  | cons i rest ih =>
    rw [List.foldl_cons]
    obtain ⟨h1, h2⟩ := ih (initStep BBList acc i)
    exact ⟨h1.trans (by simp [initStep]), h2.trans (by simp [initStep])⟩

/-- Entry `j` of the vectors `initialize` fills, started from `count` empty sets, is
the scan of block `j` started from two empty sets. -/
theorem initSets_getD (BBList : List BasicBlock) (j : Nat) :
    ((initSets BBList (List.replicate BBList.length ∅)
        (List.replicate BBList.length ∅)).1.getD j ∅,
      (initSets BBList (List.replicate BBList.length ∅)
        (List.replicate BBList.length ∅)).2.getD j ∅) =
      scanBlock (BBList.getD j noBlock) ∅ ∅ := by
  unfold initSets
  have hrep : (List.replicate BBList.length (∅ : Finset Nat)).getD j ∅ = ∅ := by
    simp only [List.getD_eq_getElem?_getD, List.getElem?_replicate]
    split <;> rfl
  rw [foldl_initStep_getD BBList _ (List.nodup_range _) _
    (fun i hi => by simpa using hi) (fun i hi => by simpa using hi)]
  simp only [hrep, List.mem_range]
  split
  · rfl
  · next hj =>
    have : BBList.getD j noBlock = noBlock := by
      simp [List.getD_eq_getElem?_getD, List.getElem?_eq_none (Nat.le_of_not_lt hj)]
    rw [this]
    rfl

theorem initSets_ueVar_getD (BBList : List BasicBlock) (j : Nat) :
    (initSets BBList (List.replicate BBList.length ∅)
        (List.replicate BBList.length ∅)).1.getD j ∅ =
      ((BBList.getD j noBlock).insts.foldl scanInst (∅, ∅)).1 :=
  congrArg Prod.fst (initSets_getD BBList j)

theorem initSets_varKill_getD (BBList : List BasicBlock) (j : Nat) :
    (initSets BBList (List.replicate BBList.length ∅)
        (List.replicate BBList.length ∅)).2.getD j ∅ =
      ((BBList.getD j noBlock).insts.foldl scanInst (∅, ∅)).2 :=
  congrArg Prod.snd (initSets_getD BBList j)

end localsets

/-! ## The liveness equations and their least solution -/

/-- The right-hand side of the liveness equation for block `b` and the family `X`:
the union over the successors `s` of `b` of `UEVar(s) ∪ (X(s) − VarKill(s))`. -/
def liveOutEq (BBList : List BasicBlock) (UEVar VarKill : List (Finset Nat))
    (X : Nat → Finset Nat) (b : Nat) : Finset Nat :=
  (BBList.getD b noBlock).succs.toFinset.biUnion
    (fun s => UEVar.getD s ∅ ∪ (X s \ VarKill.getD s ∅))

section equations

variable {BBList : List BasicBlock} {UEVar VarKill : List (Finset Nat)}

theorem mem_liveOutEq (X : Nat → Finset Nat) (b v : Nat) :
    v ∈ liveOutEq BBList UEVar VarKill X b ↔
      ∃ s ∈ (BBList.getD b noBlock).succs,
        v ∈ UEVar.getD s ∅ ∨ (v ∈ X s ∧ v ∉ VarKill.getD s ∅) := by
  simp [liveOutEq]

theorem mem_liveIn (L : List (Finset Nat)) (s v : Nat) :
    v ∈ liveIn UEVar VarKill L s ↔
      v ∈ UEVar.getD s ∅ ∨ (v ∈ L.getD s ∅ ∧ v ∉ VarKill.getD s ∅) := by
  simp [liveIn, or_comm]

theorem getD_replicate_empty (n j : Nat) :
    (List.replicate n (∅ : Finset Nat)).getD j ∅ = ∅ := by
  simp only [List.getD_eq_getElem?_getD, List.getElem?_replicate]
  split <;> rfl

theorem succs_of_length_le (b : Nat) (h : BBList.length ≤ b) :
    (BBList.getD b noBlock).succs = [] := by
  simp [List.getD_eq_getElem?_getD, List.getElem?_eq_none h, noBlock]

/-- After the successor loop for block `b`, entry `b` contains `LiveIn(s)` of every
successor visited. -/
theorem foldl_addSucc_contains (b : Nat) (ss : List Nat) (L : List (Finset Nat))
    (hb : b < L.length) (hss : ∀ s ∈ ss, s ∈ (BBList.getD b noBlock).succs)
    (s : Nat) (hs : s ∈ ss) :
    liveIn UEVar VarKill L s ⊆ (ss.foldl (addSucc b UEVar VarKill) L).getD b ∅ := by
  induction ss generalizing L with
  | nil => exact absurd hs (List.not_mem_nil s)
  | cons t rest ih =>
    have hss' : ∀ s ∈ rest, s ∈ (BBList.getD b noBlock).succs :=
      fun u hu => hss u (List.mem_cons_of_mem t hu)
    have hstep : Reach BBList UEVar VarKill L (addSucc b UEVar VarKill L t) :=
      foldl_addSucc_reach b [t] (fun u hu => hss u (by
        rw [List.mem_singleton.1 hu]; exact List.mem_cons_self t rest)) L
    rw [List.foldl_cons]
    rcases List.mem_cons.1 hs with h | h
    · have hrest := @foldl_addSucc_reach BBList UEVar VarKill b rest hss'
        (addSucc b UEVar VarKill L t)
      refine Finset.Subset.trans ?_ (hrest.mono b)
      rw [h, addSucc_eq, getD_set_eq, if_pos ⟨rfl, hb⟩]
      exact Finset.subset_union_left
    · have hb' : b < (addSucc b UEVar VarKill L t).length := by
        rw [hstep.length_eq]; exact hb
      exact Finset.Subset.trans (liveIn_mono hstep.mono s) (ih _ hb' hss' h)

theorem sweepLoop_fixed (order : List Nat) (L : List (Finset Nat))
    (h : (sweepLoop BBList UEVar VarKill order L false).2 = false) :
    ∀ i ∈ order, computeLiveOut i BBList UEVar VarKill L = L := by
  induction order with
  | nil => intro i hi; exact absurd hi (List.not_mem_nil i)
  | cons i rest ih =>
    rw [sweepLoop] at h
    have h2 := (sweepLoop_flag_false rest _ _ h).2
    have hc : ¬ L.getD i ∅ ≠ (computeLiveOut i BBList UEVar VarKill L).getD i ∅ := by
      intro hc
      rw [if_pos hc] at h2
      exact absurd h2 (by decide)
    have heq := computeLiveOut_eq_self i L (not_not.1 hc)
    rw [if_neg hc, heq] at h
    intro k hk
    rcases List.mem_cons.1 hk with hk | hk
    · rw [hk]; exact heq
    · exact ih h k hk

/-- A vector of `count` sets that a sweep visiting every block leaves unchanged
contains the right-hand side of every equation. -/
theorem liveOutEq_subset_of_stable (order : List Nat) (L : List (Finset Nat))
    (hlen : L.length = BBList.length) (hall : ∀ b, b < BBList.length → b ∈ order)
    (h : (sweepLoop BBList UEVar VarKill order L false).2 = false) (b : Nat) :
    liveOutEq BBList UEVar VarKill (fun j => L.getD j ∅) b ⊆ L.getD b ∅ := by
  intro v hv
  obtain ⟨s, hs, hvs⟩ := (mem_liveOutEq _ b v).1 hv
  have hb : b < BBList.length := by
    by_contra hb
    rw [succs_of_length_le b (Nat.le_of_not_lt hb)] at hs
    exact absurd hs (List.not_mem_nil s)
  have hfix := sweepLoop_fixed order L h b (hall b hb)
  have hc := @foldl_addSucc_contains BBList UEVar VarKill b
    (BBList.getD b noBlock).succs L (hlen ▸ hb) (fun _ h => h) s hs
  have : (BBList.getD b noBlock).succs.foldl (addSucc b UEVar VarKill) L = L := hfix
  rw [this] at hc
  exact hc ((mem_liveIn L s v).2 hvs)

/-- Every vector reachable from the all-empty one is contained in the right-hand
side of the equations evaluated at itself. -/
theorem subset_liveOutEq_of_reach (n : Nat) (L : List (Finset Nat))
    (h : Reach BBList UEVar VarKill (List.replicate n ∅) L) (b : Nat) :
    L.getD b ∅ ⊆ liveOutEq BBList UEVar VarKill (fun j => L.getD j ∅) b := by
  intro v hv
  have := h.sound (fun b v hv => by
    rw [getD_replicate_empty] at hv
    exact absurd hv (Finset.not_mem_empty v)) b v hv
  obtain ⟨s, hs, hvs⟩ := this
  exact (mem_liveOutEq _ b v).2 ⟨s, hs, (mem_liveIn L s v).1 hvs⟩

/-- Every vector reachable from the all-empty one lies below every family that
contains the right-hand side of its own equations. -/
theorem subset_of_reach_of_prefixed (n : Nat) (L : List (Finset Nat))
    (h : Reach BBList UEVar VarKill (List.replicate n ∅) L) (X : Nat → Finset Nat)
    (hX : ∀ b, b < BBList.length → liveOutEq BBList UEVar VarKill X b ⊆ X b) (b : Nat) :
    L.getD b ∅ ⊆ X b := by
  intro v hv
  have hlt : ∀ b s, s ∈ (BBList.getD b noBlock).succs → b < BBList.length := by
    intro b s hs
    by_contra hb
    rw [succs_of_length_le b (Nat.le_of_not_lt hb)] at hs
    exact absurd hs (List.not_mem_nil s)
  refine h.invariant (fun b v => v ∈ X b) ?_ ?_ ?_ b v hv
  · intro b s v hs hv
    exact hX b (hlt b s hs) ((mem_liveOutEq X b v).2 ⟨s, hs, Or.inl hv⟩)
  · intro b s v hs hv hk
    exact hX b (hlt b s hs) ((mem_liveOutEq X b v).2 ⟨s, hs, Or.inr ⟨hv, hk⟩⟩)
  · intro b v hv
    rw [getD_replicate_empty] at hv
    exact absurd hv (Finset.not_mem_empty v)

/-- The vector the loop returns from the all-empty start solves the equations. -/
theorem whileLoop_solves (order : List Nat) (hall : ∀ b, b < BBList.length → b ∈ order)
    (b : Nat) :
    (whileLoop BBList UEVar VarKill order (List.replicate BBList.length ∅)).1.getD b ∅ =
      liveOutEq BBList UEVar VarKill
        (fun j => (whileLoop BBList UEVar VarKill order
          (List.replicate BBList.length ∅)).1.getD j ∅) b := by
  have hr := @whileLoop_reach BBList UEVar VarKill
    order (List.replicate BBList.length ∅)
  apply Finset.Subset.antisymm (subset_liveOutEq_of_reach _ _ hr b)
  apply liveOutEq_subset_of_stable order _ _ hall
  · rw [whileLoop_stable]
  · rw [hr.length_eq, List.length_replicate]

end equations

/-! ## Fixpoint, least fixpoint, paths -/

/-- C1 (fixpoint satisfaction): for a well-formed routine and the `UEVar`/`VarKill`
vectors `initialize` computes, the vector `LiveOut` with which the loop of
`runOnFunction` stops satisfies, for every block `b`,
`LiveOut(b) = ⋃ over successors s of b of (UEVar(s) ∪ (LiveOut(s) − VarKill(s)))`,
and one more sweep over all blocks returns the same vector with `flag` false. -/
theorem fixpoint_satisfaction (BBList : List BasicBlock) (_hwf : WellFormed BBList) :
    (∀ b, b < BBList.length →
      (analyse BBList).LiveOut.getD b ∅ =
        liveOutEq BBList (analyse BBList).UEVar (analyse BBList).VarKill
          (fun s => (analyse BBList).LiveOut.getD s ∅) b) ∧
    sweepLoop BBList (analyse BBList).UEVar (analyse BBList).VarKill
        (List.range BBList.length) (analyse BBList).LiveOut false =
      ((analyse BBList).LiveOut, false) := by
  constructor
  · intro b _
    exact whileLoop_solves (List.range BBList.length)
      (fun b hb => List.mem_range.2 hb) b
  · exact whileLoop_stable (List.range BBList.length) _

/-- The statement of C1 at a two-block routine with a cycle and a self-loop. -/
theorem fixpoint_satisfaction_witness :
    WellFormed [⟨[], [1]⟩, ⟨[Instr.Load 7], [0, 1]⟩] ∧
    ((∀ b, b < 2 →
      (analyse [⟨[], [1]⟩, ⟨[Instr.Load 7], [0, 1]⟩]).LiveOut.getD b ∅ =
        liveOutEq [⟨[], [1]⟩, ⟨[Instr.Load 7], [0, 1]⟩]
          (analyse [⟨[], [1]⟩, ⟨[Instr.Load 7], [0, 1]⟩]).UEVar
          (analyse [⟨[], [1]⟩, ⟨[Instr.Load 7], [0, 1]⟩]).VarKill
          (fun s => (analyse [⟨[], [1]⟩, ⟨[Instr.Load 7], [0, 1]⟩]).LiveOut.getD s ∅) b) ∧
    sweepLoop [⟨[], [1]⟩, ⟨[Instr.Load 7], [0, 1]⟩]
        (analyse [⟨[], [1]⟩, ⟨[Instr.Load 7], [0, 1]⟩]).UEVar
        (analyse [⟨[], [1]⟩, ⟨[Instr.Load 7], [0, 1]⟩]).VarKill
        (List.range 2) (analyse [⟨[], [1]⟩, ⟨[Instr.Load 7], [0, 1]⟩]).LiveOut false =
      ((analyse [⟨[], [1]⟩, ⟨[Instr.Load 7], [0, 1]⟩]).LiveOut, false)) :=
  ⟨by decide, fixpoint_satisfaction [⟨[], [1]⟩, ⟨[Instr.Load 7], [0, 1]⟩] (by decide)⟩

/-- C2 (least fixpoint): for a well-formed routine the vector `LiveOut` computed from
the all-empty start solves the liveness equations, and it lies below every family `X`
of sets indexed by blocks that solves them: `LiveOut(b) ⊆ X(b)` for every block `b`. -/
theorem least_fixpoint (BBList : List BasicBlock) (_hwf : WellFormed BBList)
    (X : Nat → Finset Nat)
    (hX : ∀ b, b < BBList.length →
      X b = liveOutEq BBList (analyse BBList).UEVar (analyse BBList).VarKill X b) :
    (∀ b, b < BBList.length →
      (analyse BBList).LiveOut.getD b ∅ =
        liveOutEq BBList (analyse BBList).UEVar (analyse BBList).VarKill
          (fun s => (analyse BBList).LiveOut.getD s ∅) b) ∧
    ∀ b, b < BBList.length → (analyse BBList).LiveOut.getD b ∅ ⊆ X b := by
  constructor
  · intro b _
    exact whileLoop_solves (List.range BBList.length)
      (fun b hb => List.mem_range.2 hb) b
  · intro b _
    exact subset_of_reach_of_prefixed BBList.length _
      (whileLoop_reach (List.range BBList.length) _) X
      (fun b hb => (hX b hb).symm ▸ Finset.Subset.refl _) b

/-- C3 (path characterisation): for a well-formed routine, `v` is in the final
`LiveOut(b)` iff there is a path `b → s1 → ... → sn`, `n ≥ 1`, along successor edges
with `v ∈ UEVar(sn)` and `v ∉ VarKill(si)` for every `i < n`. -/
theorem path_characterisation (BBList : List BasicBlock) (_hwf : WellFormed BBList)
    (b v : Nat) :
    v ∈ (analyse BBList).LiveOut.getD b ∅ ↔
      ∃ p, liveAlong BBList (analyse BBList).UEVar (analyse BBList).VarKill v b p := by
  constructor
  · intro hv
    refine (whileLoop_reach (List.range BBList.length) _).invariant
      (fun b v => ∃ p, liveAlong BBList (analyse BBList).UEVar (analyse BBList).VarKill v b p)
      ?_ ?_ ?_ b v hv
    · intro b s v hs hv
      exact ⟨[s], hs, hv⟩
    · rintro b s v hs ⟨p, hp⟩ hk
      cases p with
      | nil => exact absurd hp (by simp [liveAlong])
      | cons t rest => exact ⟨s :: t :: rest, hs, hk, hp⟩
    · intro b v hv
      rw [getD_replicate_empty] at hv
      exact absurd hv (Finset.not_mem_empty v)
  · rintro ⟨p, hp⟩
    induction p generalizing b with
    | nil => exact absurd hp (by simp [liveAlong])
    | cons s rest ih =>
      have hsol := @whileLoop_solves BBList (analyse BBList).UEVar (analyse BBList).VarKill (List.range BBList.length)
        (fun b hb => List.mem_range.2 hb) b
      have hgoal : v ∈ liveOutEq BBList (analyse BBList).UEVar (analyse BBList).VarKill
          (fun j => (analyse BBList).LiveOut.getD j ∅) b := by
        rw [mem_liveOutEq]
        cases rest with
        | nil => exact ⟨s, hp.1, Or.inl hp.2⟩
        | cons t rest' => exact ⟨s, hp.1, Or.inr ⟨ih s hp.2.2, hp.2.1⟩⟩
      exact hsol ▸ hgoal

/-- The statement of C3 at a three-block chain, for variable `5` and block `0`. -/
theorem path_characterisation_witness :
    WellFormed [⟨[], [1]⟩, ⟨[Instr.Store 3], [2]⟩, ⟨[Instr.Load 3, Instr.Load 5], []⟩] ∧
    (5 ∈ (analyse [⟨[], [1]⟩, ⟨[Instr.Store 3], [2]⟩,
        ⟨[Instr.Load 3, Instr.Load 5], []⟩]).LiveOut.getD 0 ∅ ↔
      ∃ p, liveAlong [⟨[], [1]⟩, ⟨[Instr.Store 3], [2]⟩, ⟨[Instr.Load 3, Instr.Load 5], []⟩]
        (analyse [⟨[], [1]⟩, ⟨[Instr.Store 3], [2]⟩,
          ⟨[Instr.Load 3, Instr.Load 5], []⟩]).UEVar
        (analyse [⟨[], [1]⟩, ⟨[Instr.Store 3], [2]⟩,
          ⟨[Instr.Load 3, Instr.Load 5], []⟩]).VarKill 5 0 p) :=
  ⟨by decide, path_characterisation
    [⟨[], [1]⟩, ⟨[Instr.Store 3], [2]⟩, ⟨[Instr.Load 3, Instr.Load 5], []⟩] (by decide) 0 5⟩

/-- The statement of C2 at the routine `A → B`, `B = [Load 7]`, for the solution
`X(A) = {7}`, `X(B) = ∅`. -/
theorem least_fixpoint_witness :
    WellFormed [⟨[], [1]⟩, ⟨[Instr.Load 7], []⟩] ∧
    (∀ b, b < 2 → (fun b => if b = 0 then ({7} : Finset Nat) else ∅) b =
      liveOutEq [⟨[], [1]⟩, ⟨[Instr.Load 7], []⟩]
        (analyse [⟨[], [1]⟩, ⟨[Instr.Load 7], []⟩]).UEVar
        (analyse [⟨[], [1]⟩, ⟨[Instr.Load 7], []⟩]).VarKill
        (fun b => if b = 0 then ({7} : Finset Nat) else ∅) b) ∧
    ((∀ b, b < 2 →
      (analyse [⟨[], [1]⟩, ⟨[Instr.Load 7], []⟩]).LiveOut.getD b ∅ =
        liveOutEq [⟨[], [1]⟩, ⟨[Instr.Load 7], []⟩]
          (analyse [⟨[], [1]⟩, ⟨[Instr.Load 7], []⟩]).UEVar
          (analyse [⟨[], [1]⟩, ⟨[Instr.Load 7], []⟩]).VarKill
          (fun s => (analyse [⟨[], [1]⟩, ⟨[Instr.Load 7], []⟩]).LiveOut.getD s ∅) b) ∧
    ∀ b, b < 2 → (analyse [⟨[], [1]⟩, ⟨[Instr.Load 7], []⟩]).LiveOut.getD b ∅ ⊆
      (fun b => if b = 0 then ({7} : Finset Nat) else ∅) b) :=
  ⟨by decide, by decide,
    least_fixpoint [⟨[], [1]⟩, ⟨[Instr.Load 7], []⟩] (by decide)
      (fun b => if b = 0 then ({7} : Finset Nat) else ∅) (by decide)⟩

/-! ## Termination -/

section fuel

variable {BBList : List BasicBlock} {UEVar VarKill : List (Finset Nat)}

/-- With more fuel than there are missing pairs, the bounded loop returns what the
loop returns. -/
theorem whileLoopFuel_complete (order : List Nat) (L : List (Finset Nat)) :
    ∀ fuel, missing UEVar L < fuel →
      whileLoopFuel BBList UEVar VarKill order fuel L =
        some (whileLoop BBList UEVar VarKill order L) := by
  induction L using @whileLoop_induction BBList UEVar VarKill order with
  | hchanged L h ih =>
    intro fuel hf
    cases fuel with
    | zero => exact absurd hf (Nat.not_lt_zero _)
    | succ k =>
      have hlt := @sweepLoop_missing_lt BBList UEVar VarKill order L h
      rw [whileLoopFuel, if_pos h, ih k (by omega), whileLoop_eq order L, if_pos h]
      rfl
  | hstable L h =>
    intro fuel hf
    cases fuel with
    | zero => exact absurd hf (Nat.not_lt_zero _)
    | succ k =>
      have hn : ¬ (sweepLoop BBList UEVar VarKill order L false).2 = true := by simp [h]
      rw [whileLoopFuel, if_neg hn, whileLoop_eq order L, if_neg hn]

/-- Whatever the bounded loop returns is what the loop returns. -/
theorem whileLoopFuel_sound (order : List Nat) (fuel : Nat) (L : List (Finset Nat))
    (r : List (Finset Nat) × Nat)
    (h : whileLoopFuel BBList UEVar VarKill order fuel L = some r) :
    whileLoop BBList UEVar VarKill order L = r := by
  induction fuel generalizing L r with
  | zero => simp [whileLoopFuel] at h
  | succ k ih =>
    rw [whileLoopFuel] at h
    by_cases hc : (sweepLoop BBList UEVar VarKill order L false).2 = true
    · rw [if_pos hc] at h
      cases hq : whileLoopFuel BBList UEVar VarKill order k
          (sweepLoop BBList UEVar VarKill order L false).1 with
      | none => rw [hq] at h; simp at h
      | some q =>
        rw [hq] at h
        rw [whileLoop_eq, if_pos hc, ih _ q hq]
        simpa using h
    · rw [if_neg hc] at h
      rw [whileLoop_eq, if_neg hc]
      simpa using h

/-- The loop executes at most one sweep more than there are missing pairs. -/
theorem whileLoop_sweeps_le (order : List Nat) (L : List (Finset Nat)) :
    (whileLoop BBList UEVar VarKill order L).2 ≤ missing UEVar L + 1 := by
  induction L using @whileLoop_induction BBList UEVar VarKill order with
  | hchanged L h ih =>
    have hlt := @sweepLoop_missing_lt BBList UEVar VarKill order L h
    rw [whileLoop_eq, if_pos h]
    show _ + 1 ≤ _
    omega
  | hstable L h =>
    rw [whileLoop_eq, if_neg (by simp [h])]
    show 1 ≤ _
    omega

end fuel

/-- C4 (termination): for a well-formed routine every sweep that sets `flag` lowers
the number of (block, variable) pairs not yet in `LiveOut`, on which the loop
`whileLoop` recurses; so the sweep loop of `runOnFunction` stops: bounded to any
number of sweeps above the number of pairs missing at the start, it returns the
result of the analysis, after at least one and finitely many sweeps. -/
theorem whileLoop_terminates (BBList : List BasicBlock) (_hwf : WellFormed BBList) :
    (∀ L : List (Finset Nat),
      (sweepLoop BBList (analyse BBList).UEVar (analyse BBList).VarKill
        (List.range BBList.length) L false).2 = true →
      missing (analyse BBList).UEVar
        (sweepLoop BBList (analyse BBList).UEVar (analyse BBList).VarKill
          (List.range BBList.length) L false).1 < missing (analyse BBList).UEVar L) ∧
    (∀ fuel, missing (analyse BBList).UEVar (List.replicate BBList.length ∅) < fuel →
      whileLoopFuel BBList (analyse BBList).UEVar (analyse BBList).VarKill
        (List.range BBList.length) fuel (List.replicate BBList.length ∅) =
        some ((analyse BBList).LiveOut, (analyse BBList).sweeps)) ∧
    1 ≤ (analyse BBList).sweeps ∧
    (analyse BBList).sweeps ≤
      missing (analyse BBList).UEVar (List.replicate BBList.length ∅) + 1 := by
  refine ⟨fun L h => sweepLoop_missing_lt _ L h,
    fun fuel hf => whileLoopFuel_complete _ _ fuel hf, ?_, whileLoop_sweeps_le _ _⟩
  show 1 ≤ (whileLoop BBList _ _ (List.range BBList.length) _).2
  rw [whileLoop_eq]
  split
  · exact Nat.le_add_left 1 _
  · exact Nat.le_refl 1

/-- C7 (monotonicity): for a well-formed routine, every vector `L` and every block
`b`, the entry `LiveOut[b]` after one round of the successor loop, after a
single-block update `computeLiveOut(i)`, and after a whole sweep, contains the entry
before; no element is ever removed. -/
theorem monotonicity (BBList : List BasicBlock) (_hwf : WellFormed BBList)
    (L : List (Finset Nat)) (b : Nat) :
    (∀ i s, L.getD b ∅ ⊆
      (addSucc i (analyse BBList).UEVar (analyse BBList).VarKill L s).getD b ∅) ∧
    (∀ i, L.getD b ∅ ⊆
      (computeLiveOut i BBList (analyse BBList).UEVar (analyse BBList).VarKill L).getD b ∅) ∧
    (∀ flag, L.getD b ∅ ⊆
      (sweepLoop BBList (analyse BBList).UEVar (analyse BBList).VarKill
        (List.range BBList.length) L flag).1.getD b ∅) ∧
    L.getD b ∅ ⊆
      (whileLoop BBList (analyse BBList).UEVar (analyse BBList).VarKill
        (List.range BBList.length) L).1.getD b ∅ :=
  ⟨fun i _ => set_union_mono L i _ b,
    fun i => (computeLiveOut_reach i L).mono b,
    fun flag => (sweepLoop_reach _ L flag).mono b,
    (whileLoop_reach _ L).mono b⟩

/-- The statement of C7 at a two-block routine, the vector `[{4}, ∅]` and block `0`. -/
theorem monotonicity_witness :
    WellFormed [⟨[Instr.Load 2], [1, 0]⟩, ⟨[Instr.Store 2, Instr.Load 4], [0]⟩] ∧
    ((∀ i s, [({4} : Finset Nat), ∅].getD 0 ∅ ⊆
      (addSucc i
        (analyse [⟨[Instr.Load 2], [1, 0]⟩, ⟨[Instr.Store 2, Instr.Load 4], [0]⟩]).UEVar
        (analyse [⟨[Instr.Load 2], [1, 0]⟩, ⟨[Instr.Store 2, Instr.Load 4], [0]⟩]).VarKill
        [{4}, ∅] s).getD 0 ∅) ∧
    (∀ i, [({4} : Finset Nat), ∅].getD 0 ∅ ⊆
      (computeLiveOut i [⟨[Instr.Load 2], [1, 0]⟩, ⟨[Instr.Store 2, Instr.Load 4], [0]⟩]
        (analyse [⟨[Instr.Load 2], [1, 0]⟩, ⟨[Instr.Store 2, Instr.Load 4], [0]⟩]).UEVar
        (analyse [⟨[Instr.Load 2], [1, 0]⟩, ⟨[Instr.Store 2, Instr.Load 4], [0]⟩]).VarKill
        [{4}, ∅]).getD 0 ∅) ∧
    (∀ flag, [({4} : Finset Nat), ∅].getD 0 ∅ ⊆
      (sweepLoop [⟨[Instr.Load 2], [1, 0]⟩, ⟨[Instr.Store 2, Instr.Load 4], [0]⟩]
        (analyse [⟨[Instr.Load 2], [1, 0]⟩, ⟨[Instr.Store 2, Instr.Load 4], [0]⟩]).UEVar
        (analyse [⟨[Instr.Load 2], [1, 0]⟩, ⟨[Instr.Store 2, Instr.Load 4], [0]⟩]).VarKill
        (List.range 2) [{4}, ∅] flag).1.getD 0 ∅) ∧
    [({4} : Finset Nat), ∅].getD 0 ∅ ⊆
      (whileLoop [⟨[Instr.Load 2], [1, 0]⟩, ⟨[Instr.Store 2, Instr.Load 4], [0]⟩]
        (analyse [⟨[Instr.Load 2], [1, 0]⟩, ⟨[Instr.Store 2, Instr.Load 4], [0]⟩]).UEVar
        (analyse [⟨[Instr.Load 2], [1, 0]⟩, ⟨[Instr.Store 2, Instr.Load 4], [0]⟩]).VarKill
        (List.range 2) [{4}, ∅]).1.getD 0 ∅) :=
  ⟨by decide, monotonicity
    [⟨[Instr.Load 2], [1, 0]⟩, ⟨[Instr.Store 2, Instr.Load 4], [0]⟩] (by decide) [{4}, ∅] 0⟩

/-- A well-formed routine with a cycle and a self-loop, at which C4 applies: its loop
executes at least one sweep and stops. -/
theorem whileLoop_terminates_witness :
    WellFormed [⟨[Instr.Load 2], [1, 0]⟩, ⟨[Instr.Store 2, Instr.Load 4], [0]⟩] ∧
    1 ≤ (analyse [⟨[Instr.Load 2], [1, 0]⟩, ⟨[Instr.Store 2, Instr.Load 4], [0]⟩]).sweeps :=
  ⟨by decide, (whileLoop_terminates
    [⟨[Instr.Load 2], [1, 0]⟩, ⟨[Instr.Store 2, Instr.Load 4], [0]⟩] (by decide)).2.2.1⟩

/-! ## The local sets computed by `initialize` -/

/-- C5 (UEVar characterisation): for every block `b` and variable `v`, `initialize`
puts `v` in `UEVar(b)` iff the block is `pre ++ Load v :: post` with no store to `v`
in `pre`; equivalently, with neither a store to nor a load of `v` in `pre` (the first
access to `v` exists and is a load). For the block `[Store x, Load x]` the set
`UEVar` is empty. -/
theorem ueVar_characterisation (BBList : List BasicBlock) (b v : Nat) :
    (v ∈ (initSets BBList (List.replicate BBList.length ∅)
        (List.replicate BBList.length ∅)).1.getD b ∅ ↔
      ∃ pre post, (BBList.getD b noBlock).insts = pre ++ Instr.Load v :: post ∧
        Instr.Store v ∉ pre) ∧
    (v ∈ (initSets BBList (List.replicate BBList.length ∅)
        (List.replicate BBList.length ∅)).1.getD b ∅ ↔
      ∃ pre post, (BBList.getD b noBlock).insts = pre ++ Instr.Load v :: post ∧
        Instr.Store v ∉ pre ∧ Instr.Load v ∉ pre) ∧
    ∀ (x : Nat) (succs : List Nat),
      (initSets [⟨[Instr.Store x, Instr.Load x], succs⟩] [∅] [∅]).1 = [∅] := by
  have key : v ∈ (initSets BBList (List.replicate BBList.length ∅)
        (List.replicate BBList.length ∅)).1.getD b ∅ ↔
      ∃ pre post, (BBList.getD b noBlock).insts = pre ++ Instr.Load v :: post ∧
        Instr.Store v ∉ pre := by
    rw [initSets_ueVar_getD, mem_scan_ueVar]
    simp
  refine ⟨key, key.trans ⟨first_access_of_split _ v, ?_⟩, ?_⟩
  · rintro ⟨pre, post, h1, h2, _⟩
    exact ⟨pre, post, h1, h2⟩
  · intro x succs
    simp [initSets, initStep, scanBlock, scanInst, List.range_succ]

/-- C6 (VarKill characterisation): for every block `b` and variable `v`, `initialize`
puts `v` in `VarKill(b)` iff a store to `v` occurs in `b`, wherever it stands; a load
and an instruction that is neither leave the running `VarKill` as it was. -/
theorem varKill_characterisation (BBList : List BasicBlock) (b v : Nat) :
    (v ∈ (initSets BBList (List.replicate BBList.length ∅)
        (List.replicate BBList.length ∅)).2.getD b ∅ ↔
      Instr.Store v ∈ (BBList.getD b noBlock).insts) ∧
    (∀ (acc : Finset Nat × Finset Nat) (w : Nat),
      (scanInst acc (Instr.Load w)).2 = acc.2) ∧
    ∀ acc : Finset Nat × Finset Nat, (scanInst acc Instr.Other).2 = acc.2 := by
  refine ⟨?_, ?_, fun acc => rfl⟩
  · rw [initSets_varKill_getD, mem_scan_varKill]
    simp
  · intro acc w
    by_cases hw : w ∈ acc.2 <;> simp [scanInst, hw]

/-! ## Visiting order and the snapshot variant -/

section uniqueness

variable {BBList : List BasicBlock} {UEVar VarKill : List (Finset Nat)}

/-- Two vectors reachable from the all-empty one that both contain the right-hand
sides of their equations are equal. -/
theorem reach_prefixed_unique (n : Nat) (L1 L2 : List (Finset Nat))
    (h1 : Reach BBList UEVar VarKill (List.replicate n ∅) L1)
    (h2 : Reach BBList UEVar VarKill (List.replicate n ∅) L2)
    (p1 : ∀ b, liveOutEq BBList UEVar VarKill (fun j => L1.getD j ∅) b ⊆ L1.getD b ∅)
    (p2 : ∀ b, liveOutEq BBList UEVar VarKill (fun j => L2.getD j ∅) b ⊆ L2.getD b ∅) :
    L1 = L2 := by
  apply ext_getD (h1.length_eq.trans h2.length_eq.symm)
  intro b
  exact Finset.Subset.antisymm
    (subset_of_reach_of_prefixed n L1 h1 _ (fun b _ => p2 b) b)
    (subset_of_reach_of_prefixed n L2 h2 _ (fun b _ => p1 b) b)

theorem whileLoop_prefixed (order : List Nat) (hall : ∀ b, b < BBList.length → b ∈ order)
    (b : Nat) :
    liveOutEq BBList UEVar VarKill
        (fun j => (whileLoop BBList UEVar VarKill order
          (List.replicate BBList.length ∅)).1.getD j ∅) b ⊆
      (whileLoop BBList UEVar VarKill order (List.replicate BBList.length ∅)).1.getD b ∅ :=
  (whileLoop_solves order hall b) ▸ Finset.Subset.refl _

theorem snapshotWhileLoop_eq (order : List Nat) (L : List (Finset Nat)) :
    snapshotWhileLoop BBList UEVar VarKill order L =
      if (snapshotSweepLoop BBList UEVar VarKill L order L false).2 = true then
        ((snapshotWhileLoop BBList UEVar VarKill order
            (snapshotSweepLoop BBList UEVar VarKill L order L false).1).1,
          (snapshotWhileLoop BBList UEVar VarKill order
            (snapshotSweepLoop BBList UEVar VarKill L order L false).1).2 + 1)
      else ((snapshotSweepLoop BBList UEVar VarKill L order L false).1, 1) := by
  rw [snapshotWhileLoop]
  split <;> rfl

theorem snapshotWhileLoop_induction (order : List Nat) (motive : List (Finset Nat) → Prop)
    (hchanged : ∀ L, (snapshotSweepLoop BBList UEVar VarKill L order L false).2 = true →
      motive (snapshotSweepLoop BBList UEVar VarKill L order L false).1 → motive L)
    (hstable : ∀ L,
      (snapshotSweepLoop BBList UEVar VarKill L order L false).2 = false → motive L)
    (L : List (Finset Nat)) : motive L := by
  suffices H : ∀ m L, missing UEVar L = m → motive L from H _ L rfl
  intro m
  induction m using Nat.strong_induction_on with
  | _ m ih =>
    intro L hm
    by_cases h : (snapshotSweepLoop BBList UEVar VarKill L order L false).2 = true
    · exact hchanged L h (ih _ (hm ▸ snapshotSweepLoop_missing_lt order L h) _ rfl)
    · exact hstable L (Bool.eq_false_iff.2 h)

theorem snapshotWhileLoop_reach (order : List Nat) (L : List (Finset Nat)) :
    Reach BBList UEVar VarKill L (snapshotWhileLoop BBList UEVar VarKill order L).1 := by
  induction L using @snapshotWhileLoop_induction BBList UEVar VarKill order with
  | hchanged L h ih =>
    rw [snapshotWhileLoop_eq, if_pos h]
    exact (snapshotSweepLoop_reach order L L false Reach.refl).trans ih
  | hstable L h =>
    rw [snapshotWhileLoop_eq, if_neg (by simp [h])]
    exact snapshotSweepLoop_reach order L L false Reach.refl

/-- The vector the snapshot solver returns is left unchanged, with `flag` false, by
one more snapshot sweep. -/
theorem snapshotWhileLoop_stable (order : List Nat) (L : List (Finset Nat)) :
    (snapshotSweepLoop BBList UEVar VarKill
      (snapshotWhileLoop BBList UEVar VarKill order L).1 order
      (snapshotWhileLoop BBList UEVar VarKill order L).1 false).2 = false := by
  induction L using @snapshotWhileLoop_induction BBList UEVar VarKill order with
  | hchanged L h ih =>
    rw [snapshotWhileLoop_eq, if_pos h]
    exact ih
  | hstable L h =>
    rw [snapshotWhileLoop_eq, if_neg (by simp [h])]
    have h1 := (snapshotSweepLoop_flag_false order L L false h).1
    simp only [h1]
    exact h

theorem foldl_addSuccSnapshot_contains (b : Nat) (ss : List Nat)
    (snap L : List (Finset Nat)) (hb : b < L.length) (s : Nat) (hs : s ∈ ss) :
    liveIn UEVar VarKill snap s ⊆
      (ss.foldl (addSuccSnapshot b UEVar VarKill snap) L).getD b ∅ := by
  induction ss generalizing L with
  | nil => exact absurd hs (List.not_mem_nil s)
  | cons t rest ih =>
    rw [List.foldl_cons]
    rcases List.mem_cons.1 hs with h | h
    · refine Finset.Subset.trans ?_ (foldl_addSuccSnapshot_mono b rest snap _ b)
      rw [h, addSuccSnapshot_eq, getD_set_eq, if_pos ⟨rfl, hb⟩]
      exact Finset.subset_union_left
    · apply ih _ _ h
      rw [addSuccSnapshot_eq, List.length_set]
      exact hb

theorem snapshotSweepLoop_fixed (order : List Nat) (snap L : List (Finset Nat))
    (h : (snapshotSweepLoop BBList UEVar VarKill snap order L false).2 = false) :
    ∀ i ∈ order, computeLiveOutSnapshot i BBList UEVar VarKill snap L = L := by
  induction order with
  | nil => intro i hi; exact absurd hi (List.not_mem_nil i)
  | cons i rest ih =>
    rw [snapshotSweepLoop] at h
    have h2 := (snapshotSweepLoop_flag_false rest snap _ _ h).2
    have hc : ¬ L.getD i ∅ ≠
        (computeLiveOutSnapshot i BBList UEVar VarKill snap L).getD i ∅ := by
      intro hc
      rw [if_pos hc] at h2
      exact absurd h2 (by decide)
    have heq := computeLiveOutSnapshot_eq_self i snap L (not_not.1 hc)
    rw [if_neg hc, heq] at h
    intro k hk
    rcases List.mem_cons.1 hk with hk | hk
    · rw [hk]; exact heq
    · exact ih h k hk

theorem liveOutEq_subset_of_snapshot_stable (order : List Nat) (L : List (Finset Nat))
    (hlen : L.length = BBList.length) (hall : ∀ b, b < BBList.length → b ∈ order)
    (h : (snapshotSweepLoop BBList UEVar VarKill L order L false).2 = false) (b : Nat) :
    liveOutEq BBList UEVar VarKill (fun j => L.getD j ∅) b ⊆ L.getD b ∅ := by
  intro v hv
  obtain ⟨s, hs, hvs⟩ := (mem_liveOutEq _ b v).1 hv
  have hb : b < BBList.length := by
    by_contra hb
    rw [succs_of_length_le b (Nat.le_of_not_lt hb)] at hs
    exact absurd hs (List.not_mem_nil s)
  have hfix := snapshotSweepLoop_fixed order L L h b (hall b hb)
  have hc := @foldl_addSuccSnapshot_contains UEVar VarKill b
    (BBList.getD b noBlock).succs L L (hlen ▸ hb) s hs
  have : (BBList.getD b noBlock).succs.foldl (addSuccSnapshot b UEVar VarKill L) L = L :=
    hfix
  rw [this] at hc
  exact hc ((mem_liveIn L s v).2 hvs)

end uniqueness

/-- C8 (order-insensitivity): for a well-formed routine and every permutation `order`
of the block indices `0, ..., count-1` used as the visiting order of each sweep, the
loop run to termination from the all-empty vector returns the vector `LiveOut` that
the code's order `0, 1, ..., count-1` returns. -/
theorem order_insensitivity (BBList : List BasicBlock) (_hwf : WellFormed BBList)
    (order : List Nat) (hperm : order.Perm (List.range BBList.length)) :
    (whileLoop BBList (analyse BBList).UEVar (analyse BBList).VarKill order
      (List.replicate BBList.length ∅)).1 = (analyse BBList).LiveOut := by
  have hall : ∀ b, b < BBList.length → b ∈ order :=
    fun b hb => hperm.mem_iff.2 (List.mem_range.2 hb)
  have hall' : ∀ b, b < BBList.length → b ∈ List.range BBList.length :=
    fun b hb => List.mem_range.2 hb
  exact reach_prefixed_unique BBList.length _ _ (whileLoop_reach order _)
    (whileLoop_reach (List.range BBList.length) _)
    (whileLoop_prefixed order hall) (whileLoop_prefixed _ hall')

/-- The statement of C8 at a three-block cycle visited in the order `2, 0, 1`. -/
theorem order_insensitivity_witness :
    WellFormed [⟨[], [1]⟩, ⟨[Instr.Store 3], [2]⟩, ⟨[Instr.Load 3, Instr.Load 5], [0]⟩] ∧
    [2, 0, 1].Perm (List.range 3) ∧
    (whileLoop [⟨[], [1]⟩, ⟨[Instr.Store 3], [2]⟩, ⟨[Instr.Load 3, Instr.Load 5], [0]⟩]
      (analyse [⟨[], [1]⟩, ⟨[Instr.Store 3], [2]⟩,
        ⟨[Instr.Load 3, Instr.Load 5], [0]⟩]).UEVar
      (analyse [⟨[], [1]⟩, ⟨[Instr.Store 3], [2]⟩,
        ⟨[Instr.Load 3, Instr.Load 5], [0]⟩]).VarKill [2, 0, 1]
      (List.replicate 3 ∅)).1 =
    (analyse [⟨[], [1]⟩, ⟨[Instr.Store 3], [2]⟩,
      ⟨[Instr.Load 3, Instr.Load 5], [0]⟩]).LiveOut :=
  ⟨by decide, by decide, order_insensitivity
    [⟨[], [1]⟩, ⟨[Instr.Store 3], [2]⟩, ⟨[Instr.Load 3, Instr.Load 5], [0]⟩]
    (by decide) [2, 0, 1] (by decide)⟩

/-- C9 (snapshot equivalence): for a well-formed routine, the in-place sweeps of the
code and the snapshot-per-sweep variant, both started from the all-empty vector and
run until a sweep changes nothing, return the same `LiveOut` set for every block. -/
theorem snapshot_equivalence (BBList : List BasicBlock) (_hwf : WellFormed BBList) :
    (snapshotWhileLoop BBList (analyse BBList).UEVar (analyse BBList).VarKill
      (List.range BBList.length) (List.replicate BBList.length ∅)).1 =
    (analyse BBList).LiveOut := by
  have hall : ∀ b, b < BBList.length → b ∈ List.range BBList.length :=
    fun b hb => List.mem_range.2 hb
  have hr := @snapshotWhileLoop_reach BBList (analyse BBList).UEVar (analyse BBList).VarKill (List.range BBList.length)
    (List.replicate BBList.length ∅)
  refine reach_prefixed_unique BBList.length _ _ hr
    (whileLoop_reach (List.range BBList.length) _) ?_ (whileLoop_prefixed _ hall)
  apply liveOutEq_subset_of_snapshot_stable (List.range BBList.length) _ _ hall
  · exact snapshotWhileLoop_stable _ _
  · rw [hr.length_eq, List.length_replicate]

/-- The statement of C9 at a three-block routine with a cycle and a self-loop. -/
theorem snapshot_equivalence_witness :
    WellFormed [⟨[], [1]⟩, ⟨[Instr.Store 3], [2, 1]⟩, ⟨[Instr.Load 3, Instr.Load 5], [0]⟩] ∧
    (snapshotWhileLoop
      [⟨[], [1]⟩, ⟨[Instr.Store 3], [2, 1]⟩, ⟨[Instr.Load 3, Instr.Load 5], [0]⟩]
      (analyse [⟨[], [1]⟩, ⟨[Instr.Store 3], [2, 1]⟩,
        ⟨[Instr.Load 3, Instr.Load 5], [0]⟩]).UEVar
      (analyse [⟨[], [1]⟩, ⟨[Instr.Store 3], [2, 1]⟩,
        ⟨[Instr.Load 3, Instr.Load 5], [0]⟩]).VarKill
      (List.range 3) (List.replicate 3 ∅)).1 =
    (analyse [⟨[], [1]⟩, ⟨[Instr.Store 3], [2, 1]⟩,
      ⟨[Instr.Load 3, Instr.Load 5], [0]⟩]).LiveOut :=
  ⟨by decide, snapshot_equivalence
    [⟨[], [1]⟩, ⟨[Instr.Store 3], [2, 1]⟩, ⟨[Instr.Load 3, Instr.Load 5], [0]⟩] (by decide)⟩

/-! ## The number of sweeps -/

section sweepbound

theorem mem_foldr_instVars (insts : List Instr) (acc : Finset Nat) (v : Nat) :
    v ∈ insts.foldr (fun inst a => instVars inst ∪ a) acc ↔
      v ∈ acc ∨ ∃ inst ∈ insts, v ∈ instVars inst := by
  induction insts with
  | nil => simp
  | cons x rest ih =>
    rw [List.foldr_cons, Finset.mem_union, ih]
    simp only [List.mem_cons, exists_eq_or_imp]
    tauto

theorem mem_allVars (BBList : List BasicBlock) (v : Nat) :
    v ∈ allVars BBList ↔ ∃ bb ∈ BBList, ∃ inst ∈ bb.insts, v ∈ instVars inst := by
  induction BBList with
  | nil => simp [allVars]
  | cons bb rest ih =>
    have : allVars (bb :: rest) =
        bb.insts.foldr (fun inst a => instVars inst ∪ a) (allVars rest) := rfl
    rw [this, mem_foldr_instVars, ih]
    simp only [List.mem_cons, exists_eq_or_imp]
    exact or_comm

/-- Every upward-exposed variable is a variable of the routine. -/
theorem ueVar_subset_allVars (BBList : List BasicBlock) (s : Nat) :
    (analyse BBList).UEVar.getD s ∅ ⊆ allVars BBList := by
  intro v hv
  have hv' : v ∈ (initSets BBList (List.replicate BBList.length ∅)
      (List.replicate BBList.length ∅)).1.getD s ∅ := hv
  rw [initSets_ueVar_getD, mem_scan_ueVar] at hv'
  rcases hv' with h | ⟨_, pre, post, heq, _⟩
  · exact absurd h (Finset.not_mem_empty v)
  · have hmem : Instr.Load v ∈ (BBList.getD s noBlock).insts := by
      rw [heq]; simp
    have hs : s < BBList.length := by
      by_contra hs
      have : BBList.getD s noBlock = noBlock := by
        simp [List.getD_eq_getElem?_getD, List.getElem?_eq_none (Nat.le_of_not_lt hs)]
      rw [this] at hmem
      exact absurd hmem (List.not_mem_nil _)
    have hbb : BBList.getD s noBlock ∈ BBList := by
      have : BBList.getD s noBlock = BBList[s] := by
        simp [List.getD_eq_getElem?_getD, List.getElem?_eq_getElem hs]
      rw [this]
      exact List.getElem_mem hs
    exact (mem_allVars BBList v).2 ⟨_, hbb, _, hmem, by simp [instVars]⟩

/-- At the all-empty start, at most `count × |V|` pairs are missing when every
`UEVar` set lies in `V`. -/
theorem missing_replicate_le (UEVar : List (Finset Nat)) (n : Nat) (V : Finset Nat)
    (hV : ∀ s, UEVar.getD s ∅ ⊆ V) :
    missing UEVar (List.replicate n ∅) ≤ n * V.card := by
  unfold missing
  rw [List.length_replicate]
  have hle : ∀ b ∈ Finset.range n,
      (varUniverse UEVar (List.replicate n ∅) \
        (List.replicate n (∅ : Finset Nat)).getD b ∅).card ≤ V.card := by
    intro b _
    apply Finset.card_le_card
    intro v hv
    rcases (mem_varUniverse UEVar _ v).1 (Finset.mem_sdiff.1 hv).1 with ⟨s, hs⟩ | ⟨c, hc⟩
    · exact hV s hs
    · rw [getD_replicate_empty] at hc
      exact absurd hc (Finset.not_mem_empty v)
  have := Finset.sum_le_card_nsmul (Finset.range n) _ V.card hle
  simpa using this

end sweepbound

/-- C10 as stated fails: the one-block routine whose block loads `0` and is its own
successor is well formed, has one block and one variable, and its loop executes two
sweeps (the first adds `0` to `LiveOut[0]`, the second detects no change). -/
theorem sweep_bound_counterexample :
    WellFormed [⟨[Instr.Load 0], [0]⟩] ∧
    (analyse [⟨[Instr.Load 0], [0]⟩]).sweeps = 2 ∧
    [(⟨[Instr.Load 0], [0]⟩ : BasicBlock)].length *
      (allVars [⟨[Instr.Load 0], [0]⟩]).card = 1 ∧
    ¬ (analyse [⟨[Instr.Load 0], [0]⟩]).sweeps ≤
      [(⟨[Instr.Load 0], [0]⟩ : BasicBlock)].length *
        (allVars [⟨[Instr.Load 0], [0]⟩]).card := by
  have h : (analyse [⟨[Instr.Load 0], [0]⟩]).sweeps = 2 :=
    congrArg Prod.snd (whileLoopFuel_sound (List.range 1) 2 (List.replicate 1 ∅)
      ([{0}], 2) (by decide))
  have hv : [(⟨[Instr.Load 0], [0]⟩ : BasicBlock)].length *
      (allVars [⟨[Instr.Load 0], [0]⟩]).card = 1 := by decide
  refine ⟨by decide, h, hv, ?_⟩
  rw [h, hv]
  decide

/-- C10 (sweep bound, amended): for a well-formed routine the number of sweeps the
loop of `runOnFunction` executes, the last one included, is at most
(number of blocks) × (number of distinct variables read or written) + 1. -/
theorem sweep_bound (BBList : List BasicBlock) (_hwf : WellFormed BBList) :
    (analyse BBList).sweeps ≤ BBList.length * (allVars BBList).card + 1 := by
  have h1 : (analyse BBList).sweeps ≤
      missing (analyse BBList).UEVar (List.replicate BBList.length ∅) + 1 :=
    whileLoop_sweeps_le _ _
  have h2 := missing_replicate_le (analyse BBList).UEVar BBList.length (allVars BBList)
    (ueVar_subset_allVars BBList)
  omega

/-- The amended bound of C10 at a two-block routine with two variables. -/
theorem sweep_bound_witness :
    WellFormed [⟨[Instr.Load 0], [1]⟩, ⟨[Instr.Store 0, Instr.Load 1], [0, 1]⟩] ∧
    (analyse [⟨[Instr.Load 0], [1]⟩, ⟨[Instr.Store 0, Instr.Load 1], [0, 1]⟩]).sweeps ≤
      [(⟨[Instr.Load 0], [1]⟩ : BasicBlock), ⟨[Instr.Store 0, Instr.Load 1], [0, 1]⟩].length *
        (allVars [⟨[Instr.Load 0], [1]⟩, ⟨[Instr.Store 0, Instr.Load 1], [0, 1]⟩]).card + 1 :=
  ⟨by decide, sweep_bound
    [⟨[Instr.Load 0], [1]⟩, ⟨[Instr.Store 0, Instr.Load 1], [0, 1]⟩] (by decide)⟩

/-! ## States of the iteration -/

/-- The vector after the single-block updates `computeLiveOut(i)` for the block
indices `i` of `visits`, in that order. The loop of `runOnFunction` performs such a
sequence: `0, ..., count-1` once per sweep. -/
def runUpdates (BBList : List BasicBlock) (UEVar VarKill : List (Finset Nat))
    (visits : List Nat) (LiveOut : List (Finset Nat)) : List (Finset Nat) :=
  visits.foldl (fun L i => computeLiveOut i BBList UEVar VarKill L) LiveOut

section states

variable {BBList : List BasicBlock} {UEVar VarKill : List (Finset Nat)}

theorem runUpdates_reach (visits : List Nat) (L : List (Finset Nat)) :
    Reach BBList UEVar VarKill L (runUpdates BBList UEVar VarKill visits L) := by
  induction visits generalizing L with
  | nil => exact Reach.refl
  | cons i rest ih => exact (computeLiveOut_reach i L).trans (ih _)

/-- The vector a sweep leaves is the one its single-block updates produce. -/
theorem sweepLoop_eq_runUpdates (order : List Nat) (L : List (Finset Nat)) (flag : Bool) :
    (sweepLoop BBList UEVar VarKill order L flag).1 =
      runUpdates BBList UEVar VarKill order L := by
  induction order generalizing L flag with
  | nil => rfl
  | cons i rest ih =>
    rw [sweepLoop]
    exact ih _ _

/-- In a vector reachable from the all-empty one, a block that has a live variable
has a successor. -/
theorem Reach.succs_ne_nil (n : Nat) {L : List (Finset Nat)}
    (h : Reach BBList UEVar VarKill (List.replicate n ∅) L) (b v : Nat)
    (hv : v ∈ L.getD b ∅) : (BBList.getD b noBlock).succs ≠ [] := by
  refine h.invariant (fun b _ => (BBList.getD b noBlock).succs ≠ []) ?_ ?_ ?_ b v hv
  · intro b s _ hs _
    exact List.ne_nil_of_mem hs
  · intro b s _ hs _ _
    exact List.ne_nil_of_mem hs
  · intro b v hv
    rw [getD_replicate_empty] at hv
    exact absurd hv (Finset.not_mem_empty v)

/-- In a vector reachable from the all-empty one, every live variable is
upward-exposed in some block of the routine. -/
theorem Reach.mem_ueVar (n : Nat) {L : List (Finset Nat)}
    (h : Reach BBList UEVar VarKill (List.replicate n ∅) L) (b v : Nat)
    (hv : v ∈ L.getD b ∅) : ∃ s, s < UEVar.length ∧ v ∈ UEVar.getD s ∅ := by
  refine h.invariant (fun _ v => ∃ s, s < UEVar.length ∧ v ∈ UEVar.getD s ∅) ?_ ?_ ?_ b v hv
  · intro _ s v _ hv
    exact ⟨s, lt_length_of_mem_getD hv, hv⟩
  · intro _ _ _ _ hv _
    exact hv
  · intro b v hv
    rw [getD_replicate_empty] at hv
    exact absurd hv (Finset.not_mem_empty v)

/-- The update of a block without successors changes nothing. -/
theorem computeLiveOut_of_succs_nil (b : Nat) (L : List (Finset Nat))
    (hs : (BBList.getD b noBlock).succs = []) :
    computeLiveOut b BBList UEVar VarKill L = L := by
  unfold computeLiveOut
  rw [hs]
  rfl

theorem computeLiveOut_getD_of_succs_nil (b i : Nat) (L : List (Finset Nat))
    (hs : (BBList.getD b noBlock).succs = []) :
    (computeLiveOut i BBList UEVar VarKill L).getD b ∅ = L.getD b ∅ := by
  by_cases hi : b = i
  · rw [← hi, computeLiveOut_of_succs_nil b L hs]
  · exact computeLiveOut_frame i L b hi

theorem runUpdates_getD_of_succs_nil (b : Nat) (visits : List Nat) (L : List (Finset Nat))
    (hs : (BBList.getD b noBlock).succs = []) :
    (runUpdates BBList UEVar VarKill visits L).getD b ∅ = L.getD b ∅ := by
  induction visits generalizing L with
  | nil => rfl
  | cons i rest ih =>
    show (runUpdates BBList UEVar VarKill rest _).getD b ∅ = _
    rw [ih, computeLiveOut_getD_of_succs_nil b i L hs]

theorem length_initSets (BBList : List BasicBlock) :
    (initSets BBList (List.replicate BBList.length ∅)
      (List.replicate BBList.length ∅)).1.length = BBList.length ∧
    (initSets BBList (List.replicate BBList.length ∅)
      (List.replicate BBList.length ∅)).2.length = BBList.length := by
  have h := foldl_initStep_length BBList (List.range BBList.length)
    (List.replicate BBList.length ∅, List.replicate BBList.length ∅)
  simpa [initSets] using h

end states

/-- C11 (terminal block): for a well-formed routine and a block `b` without
successors, `LiveOut(b)` is empty in the final result; no single-block update and no
sweep changes entry `b` of any vector, so it is empty after every sequence of updates
from the all-empty start, and in every vector reachable from it. -/
theorem terminal_block (BBList : List BasicBlock) (_hwf : WellFormed BBList) (b : Nat)
    (_hb : b < BBList.length) (hs : (BBList.getD b noBlock).succs = []) :
    (analyse BBList).LiveOut.getD b ∅ = ∅ ∧
    (∀ (L : List (Finset Nat)) (i : Nat),
      (computeLiveOut i BBList (analyse BBList).UEVar (analyse BBList).VarKill L).getD b ∅ =
        L.getD b ∅) ∧
    (∀ (L : List (Finset Nat)) (flag : Bool),
      (sweepLoop BBList (analyse BBList).UEVar (analyse BBList).VarKill
        (List.range BBList.length) L flag).1.getD b ∅ = L.getD b ∅) ∧
    (∀ visits : List Nat,
      (runUpdates BBList (analyse BBList).UEVar (analyse BBList).VarKill visits
        (List.replicate BBList.length ∅)).getD b ∅ = ∅) ∧
    ∀ L : List (Finset Nat),
      Reach BBList (analyse BBList).UEVar (analyse BBList).VarKill
        (List.replicate BBList.length ∅) L → L.getD b ∅ = ∅ := by
  have hreach : ∀ L : List (Finset Nat),
      Reach BBList (analyse BBList).UEVar (analyse BBList).VarKill
        (List.replicate BBList.length ∅) L → L.getD b ∅ = ∅ := by
    intro L hL
    apply Finset.eq_empty_of_forall_not_mem
    intro v hv
    exact hL.succs_ne_nil BBList.length b v hv hs
  refine ⟨hreach _ (whileLoop_reach (List.range BBList.length) _),
    fun L i => computeLiveOut_getD_of_succs_nil b i L hs, ?_, ?_, hreach⟩
  · intro L flag
    rw [sweepLoop_eq_runUpdates, runUpdates_getD_of_succs_nil b _ L hs]
  · intro visits
    rw [runUpdates_getD_of_succs_nil b _ _ hs, getD_replicate_empty]

/-- The statement of C11 at the routine `A → B`, `B = [Load 7]`, for the exit block. -/
theorem terminal_block_witness :
    WellFormed [⟨[], [1]⟩, ⟨[Instr.Load 7], []⟩] ∧ 1 < 2 ∧
    ([(⟨[], [1]⟩ : BasicBlock), ⟨[Instr.Load 7], []⟩].getD 1 noBlock).succs = [] ∧
    (analyse [⟨[], [1]⟩, ⟨[Instr.Load 7], []⟩]).LiveOut.getD 1 ∅ = ∅ :=
  ⟨by decide, by decide, by decide,
    (terminal_block [⟨[], [1]⟩, ⟨[Instr.Load 7], []⟩] (by decide) 1 (by decide)
      (by decide)).1⟩

/-- C12 (idempotence): for a well-formed routine, the sweep loop started from the
vector `LiveOut` the solver returned executes exactly one sweep, which leaves `flag`
false, and returns the same vector. -/
theorem idempotence (BBList : List BasicBlock) (_hwf : WellFormed BBList) :
    whileLoop BBList (analyse BBList).UEVar (analyse BBList).VarKill
        (List.range BBList.length) (analyse BBList).LiveOut =
      ((analyse BBList).LiveOut, 1) ∧
    sweepLoop BBList (analyse BBList).UEVar (analyse BBList).VarKill
        (List.range BBList.length) (analyse BBList).LiveOut false =
      ((analyse BBList).LiveOut, false) := by
  have hst : sweepLoop BBList (analyse BBList).UEVar (analyse BBList).VarKill
        (List.range BBList.length) (analyse BBList).LiveOut false =
      ((analyse BBList).LiveOut, false) :=
    whileLoop_stable (List.range BBList.length) _
  refine ⟨?_, hst⟩
  rw [whileLoop_eq, hst]
  rfl

/-- The statement of C12 at a two-block routine with a cycle and a self-loop. -/
theorem idempotence_witness :
    WellFormed [⟨[Instr.Load 2], [1, 0]⟩, ⟨[Instr.Store 2, Instr.Load 4], [0]⟩] ∧
    (whileLoop [⟨[Instr.Load 2], [1, 0]⟩, ⟨[Instr.Store 2, Instr.Load 4], [0]⟩]
        (analyse [⟨[Instr.Load 2], [1, 0]⟩, ⟨[Instr.Store 2, Instr.Load 4], [0]⟩]).UEVar
        (analyse [⟨[Instr.Load 2], [1, 0]⟩, ⟨[Instr.Store 2, Instr.Load 4], [0]⟩]).VarKill
        (List.range 2)
        (analyse [⟨[Instr.Load 2], [1, 0]⟩, ⟨[Instr.Store 2, Instr.Load 4], [0]⟩]).LiveOut =
      ((analyse [⟨[Instr.Load 2], [1, 0]⟩, ⟨[Instr.Store 2, Instr.Load 4], [0]⟩]).LiveOut, 1) ∧
    sweepLoop [⟨[Instr.Load 2], [1, 0]⟩, ⟨[Instr.Store 2, Instr.Load 4], [0]⟩]
        (analyse [⟨[Instr.Load 2], [1, 0]⟩, ⟨[Instr.Store 2, Instr.Load 4], [0]⟩]).UEVar
        (analyse [⟨[Instr.Load 2], [1, 0]⟩, ⟨[Instr.Store 2, Instr.Load 4], [0]⟩]).VarKill
        (List.range 2)
        (analyse [⟨[Instr.Load 2], [1, 0]⟩, ⟨[Instr.Store 2, Instr.Load 4], [0]⟩]).LiveOut
        false =
      ((analyse [⟨[Instr.Load 2], [1, 0]⟩, ⟨[Instr.Store 2, Instr.Load 4], [0]⟩]).LiveOut,
        false)) :=
  ⟨by decide, idempotence
    [⟨[Instr.Load 2], [1, 0]⟩, ⟨[Instr.Store 2, Instr.Load 4], [0]⟩] (by decide)⟩

/-- C16 (change detection): for a well-formed routine and every vector `LiveOut` of
`count` sets at the start of a sweep, the sweep leaves `flag` true iff the entry of
at least one block after the sweep differs from its value before the sweep. -/
theorem change_detection (BBList : List BasicBlock) (_hwf : WellFormed BBList)
    (L : List (Finset Nat)) (hlen : L.length = BBList.length) :
    (sweepLoop BBList (analyse BBList).UEVar (analyse BBList).VarKill
        (List.range BBList.length) L false).2 = true ↔
      ∃ b, b < BBList.length ∧
        L.getD b ∅ ≠
          (sweepLoop BBList (analyse BBList).UEVar (analyse BBList).VarKill
            (List.range BBList.length) L false).1.getD b ∅ := by
  constructor
  · intro h
    rcases sweepLoop_flag_true _ L false h with h1 | ⟨j, hj⟩
    · exact absurd h1 (by decide)
    · refine ⟨j, ?_, hj⟩
      by_contra hlt
      have hlen' := (@sweepLoop_reach BBList (analyse BBList).UEVar
        (analyse BBList).VarKill (List.range BBList.length) L false).length_eq
      apply hj
      rw [getD_of_length_le L j (by omega), getD_of_length_le _ j (by omega)]
  · rintro ⟨b, _, hb⟩
    by_contra hf
    have h1 := (sweepLoop_flag_false _ L false (Bool.eq_false_iff.2 hf)).1
    exact hb (by rw [h1])

/-- The statement of C16 at a two-block routine and the all-empty start. -/
theorem change_detection_witness :
    WellFormed [⟨[], [1]⟩, ⟨[Instr.Load 7], [0, 1]⟩] ∧
    ([∅, ∅] : List (Finset Nat)).length =
      [(⟨[], [1]⟩ : BasicBlock), ⟨[Instr.Load 7], [0, 1]⟩].length ∧
    ((sweepLoop [⟨[], [1]⟩, ⟨[Instr.Load 7], [0, 1]⟩]
        (analyse [⟨[], [1]⟩, ⟨[Instr.Load 7], [0, 1]⟩]).UEVar
        (analyse [⟨[], [1]⟩, ⟨[Instr.Load 7], [0, 1]⟩]).VarKill
        (List.range 2) [∅, ∅] false).2 = true ↔
      ∃ b, b < 2 ∧
        ([∅, ∅] : List (Finset Nat)).getD b ∅ ≠
          (sweepLoop [⟨[], [1]⟩, ⟨[Instr.Load 7], [0, 1]⟩]
            (analyse [⟨[], [1]⟩, ⟨[Instr.Load 7], [0, 1]⟩]).UEVar
            (analyse [⟨[], [1]⟩, ⟨[Instr.Load 7], [0, 1]⟩]).VarKill
            (List.range 2) [∅, ∅] false).1.getD b ∅) :=
  ⟨by decide, by decide, change_detection [⟨[], [1]⟩, ⟨[Instr.Load 7], [0, 1]⟩]
    (by decide) [∅, ∅] (by decide)⟩

/-- C17 (a later write does not retract an upward-exposed use): if block `b` is
`pre ++ Load v :: post` with no access to `v` in `pre` and a store to `v` in `post`,
then `initialize` puts `v` both in `UEVar(b)` and in `VarKill(b)`; for the block
`[Load x, Store x]` both sets are `{x}`. -/
theorem later_write_keeps_use (BBList : List BasicBlock) (b v : Nat)
    (pre post : List Instr)
    (hsplit : (BBList.getD b noBlock).insts = pre ++ Instr.Load v :: post)
    (hstore : Instr.Store v ∉ pre) (_hload : Instr.Load v ∉ pre)
    (hlater : Instr.Store v ∈ post) :
    (v ∈ (initSets BBList (List.replicate BBList.length ∅)
        (List.replicate BBList.length ∅)).1.getD b ∅ ∧
      v ∈ (initSets BBList (List.replicate BBList.length ∅)
        (List.replicate BBList.length ∅)).2.getD b ∅) ∧
    ∀ (x : Nat) (succs : List Nat),
      initSets [⟨[Instr.Load x, Instr.Store x], succs⟩] [∅] [∅] = ([{x}], [{x}]) := by
  refine ⟨⟨?_, ?_⟩, ?_⟩
  · rw [initSets_ueVar_getD, mem_scan_ueVar]
    exact Or.inr ⟨Finset.not_mem_empty v, pre, post, hsplit, hstore⟩
  · rw [initSets_varKill_getD, mem_scan_varKill, hsplit]
    right
    simp [hlater]
  · intro x succs
    simp [initSets, initStep, scanBlock, scanInst, List.range_succ]

/-- The statement of C17 at the block `[Other, Load 3, Load 4, Store 3]`. -/
theorem later_write_keeps_use_witness :
    ([(⟨[Instr.Other, Instr.Load 3, Instr.Load 4, Instr.Store 3], []⟩ : BasicBlock)].getD 0
        noBlock).insts = [Instr.Other] ++ Instr.Load 3 :: [Instr.Load 4, Instr.Store 3] ∧
    Instr.Store 3 ∉ [Instr.Other] ∧ Instr.Load 3 ∉ [Instr.Other] ∧
    Instr.Store 3 ∈ [Instr.Load 4, Instr.Store 3] ∧
    (3 ∈ (initSets [⟨[Instr.Other, Instr.Load 3, Instr.Load 4, Instr.Store 3], []⟩]
        (List.replicate 1 ∅) (List.replicate 1 ∅)).1.getD 0 ∅ ∧
      3 ∈ (initSets [⟨[Instr.Other, Instr.Load 3, Instr.Load 4, Instr.Store 3], []⟩]
        (List.replicate 1 ∅) (List.replicate 1 ∅)).2.getD 0 ∅) :=
  ⟨by decide, by decide, by decide, by decide,
    (later_write_keeps_use
      [⟨[Instr.Other, Instr.Load 3, Instr.Load 4, Instr.Store 3], []⟩] 0 3
      [Instr.Other] [Instr.Load 4, Instr.Store 3] (by decide) (by decide) (by decide)
      (by decide)).1⟩

/-- C18 (frame of a single-block update): for a well-formed routine, every vector
`L` and every block index `i`, `computeLiveOut(i, ...)` leaves entry `j` of `LiveOut`
unchanged for every `j ≠ i` and keeps the number of entries. `UEVar` and `VarKill`
are value parameters of `computeLiveOut`, which returns only `LiveOut`: the vectors
the analysis reports are those `initialize` computed. -/
theorem computeLiveOut_frame_effect (BBList : List BasicBlock) (_hwf : WellFormed BBList)
    (L : List (Finset Nat)) (i : Nat) :
    (∀ j, j ≠ i →
      (computeLiveOut i BBList (analyse BBList).UEVar (analyse BBList).VarKill L).getD j ∅ =
        L.getD j ∅) ∧
    (computeLiveOut i BBList (analyse BBList).UEVar (analyse BBList).VarKill L).length =
      L.length ∧
    (analyse BBList).UEVar =
      (initSets BBList (List.replicate BBList.length ∅)
        (List.replicate BBList.length ∅)).1 ∧
    (analyse BBList).VarKill =
      (initSets BBList (List.replicate BBList.length ∅)
        (List.replicate BBList.length ∅)).2 :=
  ⟨fun j hj => computeLiveOut_frame i L j hj, (computeLiveOut_reach i L).length_eq, rfl, rfl⟩

/-- The statement of C18 at a two-block routine, the vector `[{4}, ∅]` and block `0`. -/
theorem computeLiveOut_frame_effect_witness :
    WellFormed [⟨[Instr.Load 2], [1, 0]⟩, ⟨[Instr.Store 2, Instr.Load 4], [0]⟩] ∧
    ∀ j, j ≠ 0 →
      (computeLiveOut 0 [⟨[Instr.Load 2], [1, 0]⟩, ⟨[Instr.Store 2, Instr.Load 4], [0]⟩]
        (analyse [⟨[Instr.Load 2], [1, 0]⟩, ⟨[Instr.Store 2, Instr.Load 4], [0]⟩]).UEVar
        (analyse [⟨[Instr.Load 2], [1, 0]⟩, ⟨[Instr.Store 2, Instr.Load 4], [0]⟩]).VarKill
        [{4}, ∅]).getD j ∅ = [({4} : Finset Nat), ∅].getD j ∅ :=
  ⟨by decide, (computeLiveOut_frame_effect
    [⟨[Instr.Load 2], [1, 0]⟩, ⟨[Instr.Store 2, Instr.Load 4], [0]⟩] (by decide)
    [{4}, ∅] 0).1⟩

/-- An upward-exposed variable of block `s` is loaded by a block of the routine. -/
theorem load_mem_of_mem_ueVar (BBList : List BasicBlock) (s v : Nat)
    (hv : v ∈ (analyse BBList).UEVar.getD s ∅) :
    ∃ bb ∈ BBList, Instr.Load v ∈ bb.insts := by
  have hv' : v ∈ (initSets BBList (List.replicate BBList.length ∅)
      (List.replicate BBList.length ∅)).1.getD s ∅ := hv
  rw [initSets_ueVar_getD, mem_scan_ueVar] at hv'
  rcases hv' with h | ⟨_, pre, post, heq, _⟩
  · exact absurd h (Finset.not_mem_empty v)
  · have hmem : Instr.Load v ∈ (BBList.getD s noBlock).insts := by
      rw [heq]; simp
    have hs : s < BBList.length := by
      by_contra hs
      have : BBList.getD s noBlock = noBlock := by
        simp [List.getD_eq_getElem?_getD, List.getElem?_eq_none (Nat.le_of_not_lt hs)]
      rw [this] at hmem
      exact absurd hmem (List.not_mem_nil _)
    have hbb : BBList.getD s noBlock ∈ BBList := by
      have : BBList.getD s noBlock = BBList[s] := by
        simp [List.getD_eq_getElem?_getD, List.getElem?_eq_getElem hs]
      rw [this]
      exact List.getElem_mem hs
    exact ⟨_, hbb, hmem⟩

/-- C19 (only read variables can be live): for a well-formed routine, in the final
result, after every sequence of single-block updates from the all-empty start and in
every vector reachable from it, each member of `LiveOut(b)` belongs to `UEVar(s)` for
some block `s` of the routine; a variable that no block loads (one that is only
written, say) is in no `LiveOut` set. -/
theorem only_read_variables_live (BBList : List BasicBlock) (_hwf : WellFormed BBList)
    (b v : Nat) :
    (v ∈ (analyse BBList).LiveOut.getD b ∅ →
      ∃ s, s < BBList.length ∧ v ∈ (analyse BBList).UEVar.getD s ∅) ∧
    (∀ visits : List Nat,
      v ∈ (runUpdates BBList (analyse BBList).UEVar (analyse BBList).VarKill visits
        (List.replicate BBList.length ∅)).getD b ∅ →
      ∃ s, s < BBList.length ∧ v ∈ (analyse BBList).UEVar.getD s ∅) ∧
    (∀ L : List (Finset Nat),
      Reach BBList (analyse BBList).UEVar (analyse BBList).VarKill
        (List.replicate BBList.length ∅) L →
      v ∈ L.getD b ∅ → ∃ s, s < BBList.length ∧ v ∈ (analyse BBList).UEVar.getD s ∅) ∧
    ((∀ bb ∈ BBList, Instr.Load v ∉ bb.insts) →
      ∀ L : List (Finset Nat),
        Reach BBList (analyse BBList).UEVar (analyse BBList).VarKill
          (List.replicate BBList.length ∅) L → v ∉ L.getD b ∅) := by
  have hlen : (analyse BBList).UEVar.length = BBList.length := (length_initSets BBList).1
  have hreach : ∀ L : List (Finset Nat),
      Reach BBList (analyse BBList).UEVar (analyse BBList).VarKill
        (List.replicate BBList.length ∅) L →
      v ∈ L.getD b ∅ → ∃ s, s < BBList.length ∧ v ∈ (analyse BBList).UEVar.getD s ∅ := by
    intro L hL hv
    obtain ⟨s, hs, hvs⟩ := hL.mem_ueVar BBList.length b v hv
    exact ⟨s, hlen ▸ hs, hvs⟩
  refine ⟨hreach _ (whileLoop_reach (List.range BBList.length) _),
    fun visits => hreach _ (runUpdates_reach visits _), hreach, ?_⟩
  intro hno L hL hv
  obtain ⟨s, _, hvs⟩ := hreach L hL hv
  obtain ⟨bb, hbb, hld⟩ := load_mem_of_mem_ueVar BBList s v hvs
  exact hno bb hbb hld

/-- The statement of C19 at a routine whose second block only writes `3`. -/
theorem only_read_variables_live_witness :
    WellFormed [⟨[], [1]⟩, ⟨[Instr.Store 3], [2]⟩, ⟨[Instr.Load 5], [0]⟩] ∧
    (5 ∈ (analyse [⟨[], [1]⟩, ⟨[Instr.Store 3], [2]⟩, ⟨[Instr.Load 5], [0]⟩]).LiveOut.getD
        0 ∅ →
      ∃ s, s < 3 ∧
        5 ∈ (analyse [⟨[], [1]⟩, ⟨[Instr.Store 3], [2]⟩, ⟨[Instr.Load 5], [0]⟩]).UEVar.getD
          s ∅) :=
  ⟨by decide, (only_read_variables_live
    [⟨[], [1]⟩, ⟨[Instr.Store 3], [2]⟩, ⟨[Instr.Load 5], [0]⟩] (by decide) 0 5).1⟩

/-! ## The scenarios of the specification -/

section scenarios

theorem initSets_read_only (x : Nat) (succsA succsB : List Nat) :
    initSets [⟨[], succsA⟩, ⟨[Instr.Load x], succsB⟩] [∅, ∅] [∅, ∅] =
      ([∅, {x}], [∅, ∅]) := by
  simp [initSets, initStep, scanBlock, scanInst, List.range_succ, noBlock]

theorem run_chain (x : Nat) :
    whileLoop [⟨[], [1]⟩, ⟨[Instr.Load x], []⟩] [∅, {x}] [∅, ∅] [0, 1] [∅, ∅] =
      ([{x}, ∅], 2) := by
  apply whileLoopFuel_sound [0, 1] 2
  have hx : ¬ (∅ : Finset Nat) = {x} := fun h => Finset.singleton_ne_empty x h.symm
  simp [whileLoopFuel, sweepLoop, computeLiveOut, addSucc, noBlock, hx]

theorem run_cycle (y : Nat) :
    whileLoop [⟨[], [1]⟩, ⟨[Instr.Load y], [0]⟩] [∅, {y}] [∅, ∅] [0, 1] [∅, ∅] =
      ([{y}, {y}], 2) := by
  apply whileLoopFuel_sound [0, 1] 2
  have hy : ¬ (∅ : Finset Nat) = {y} := fun h => Finset.singleton_ne_empty y h.symm
  simp [whileLoopFuel, sweepLoop, computeLiveOut, addSucc, noBlock, hy]

end scenarios

/-- C14 (upward-exposed uses reach predecessors): for a well-formed routine and every
edge `b → s`, the final result has `UEVar(s) ⊆ LiveOut(b)`; for the routine `A → B`
where `A` has no access and `B = [Load x]` has no successor, the result is
`UEVar(B) = {x}`, `VarKill(B) = ∅`, `LiveOut(B) = ∅`, `LiveOut(A) = {x}` (and
`UEVar(A) = VarKill(A) = ∅`). -/
theorem ueVar_subset_liveOut_pred (BBList : List BasicBlock) (_hwf : WellFormed BBList)
    (b s : Nat) (_hb : b < BBList.length) (hs : s ∈ (BBList.getD b noBlock).succs) :
    (analyse BBList).UEVar.getD s ∅ ⊆ (analyse BBList).LiveOut.getD b ∅ ∧
    ∀ x : Nat,
      (analyse [⟨[], [1]⟩, ⟨[Instr.Load x], []⟩]).UEVar = [∅, {x}] ∧
      (analyse [⟨[], [1]⟩, ⟨[Instr.Load x], []⟩]).VarKill = [∅, ∅] ∧
      (analyse [⟨[], [1]⟩, ⟨[Instr.Load x], []⟩]).LiveOut = [{x}, ∅] := by
  constructor
  · intro v hv
    have hsol : (analyse BBList).LiveOut.getD b ∅ =
        liveOutEq BBList (analyse BBList).UEVar (analyse BBList).VarKill
          (fun j => (analyse BBList).LiveOut.getD j ∅) b :=
      whileLoop_solves (List.range BBList.length) (fun b hb => List.mem_range.2 hb) b
    rw [hsol, mem_liveOutEq]
    exact ⟨s, hs, Or.inl hv⟩
  · intro x
    have hinit : initSets [⟨[], [1]⟩, ⟨[Instr.Load x], []⟩] (List.replicate 2 ∅)
        (List.replicate 2 ∅) = ([∅, {x}], [∅, ∅]) := initSets_read_only x [1] []
    refine ⟨congrArg Prod.fst hinit, congrArg Prod.snd hinit, ?_⟩
    show (whileLoop [⟨[], [1]⟩, ⟨[Instr.Load x], []⟩]
      (initSets [⟨[], [1]⟩, ⟨[Instr.Load x], []⟩] (List.replicate 2 ∅)
        (List.replicate 2 ∅)).1
      (initSets [⟨[], [1]⟩, ⟨[Instr.Load x], []⟩] (List.replicate 2 ∅)
        (List.replicate 2 ∅)).2 [0, 1] [∅, ∅]).1 = [{x}, ∅]
    rw [hinit]
    exact congrArg Prod.fst (run_chain x)

/-- The statement of C14 at the edge `0 → 1` of a three-block chain. -/
theorem ueVar_subset_liveOut_pred_witness :
    WellFormed [⟨[], [1]⟩, ⟨[Instr.Load 3], [2]⟩, ⟨[Instr.Load 5], []⟩] ∧ 0 < 3 ∧
    1 ∈ ([(⟨[], [1]⟩ : BasicBlock), ⟨[Instr.Load 3], [2]⟩,
      ⟨[Instr.Load 5], []⟩].getD 0 noBlock).succs ∧
    (analyse [⟨[], [1]⟩, ⟨[Instr.Load 3], [2]⟩, ⟨[Instr.Load 5], []⟩]).UEVar.getD 1 ∅ ⊆
      (analyse [⟨[], [1]⟩, ⟨[Instr.Load 3], [2]⟩, ⟨[Instr.Load 5], []⟩]).LiveOut.getD 0 ∅ :=
  ⟨by decide, by decide, by decide,
    (ueVar_subset_liveOut_pred [⟨[], [1]⟩, ⟨[Instr.Load 3], [2]⟩, ⟨[Instr.Load 5], []⟩]
      (by decide) 0 1 (by decide) (by decide)).1⟩

/-- C15 (loop scenario): for the routine with edges `A → B` and `B → A`, where `A`
has no access and `B = [Load y]`, the loop stops (after two sweeps) and the analysis
yields `UEVar(A) = ∅`, `VarKill(A) = ∅`, `UEVar(B) = {y}`, `VarKill(B) = ∅`,
`LiveOut(A) = {y}` and `LiveOut(B) = {y}`. -/
theorem loop_scenario (y : Nat) :
    WellFormed [⟨[], [1]⟩, ⟨[Instr.Load y], [0]⟩] ∧
    (analyse [⟨[], [1]⟩, ⟨[Instr.Load y], [0]⟩]).UEVar = [∅, {y}] ∧
    (analyse [⟨[], [1]⟩, ⟨[Instr.Load y], [0]⟩]).VarKill = [∅, ∅] ∧
    (analyse [⟨[], [1]⟩, ⟨[Instr.Load y], [0]⟩]).LiveOut = [{y}, {y}] ∧
    (analyse [⟨[], [1]⟩, ⟨[Instr.Load y], [0]⟩]).sweeps = 2 ∧
    whileLoopFuel [⟨[], [1]⟩, ⟨[Instr.Load y], [0]⟩]
        (analyse [⟨[], [1]⟩, ⟨[Instr.Load y], [0]⟩]).UEVar
        (analyse [⟨[], [1]⟩, ⟨[Instr.Load y], [0]⟩]).VarKill (List.range 2) 2
        (List.replicate 2 ∅) = some ([{y}, {y}], 2) := by
  have hinit : initSets [⟨[], [1]⟩, ⟨[Instr.Load y], [0]⟩] (List.replicate 2 ∅)
      (List.replicate 2 ∅) = ([∅, {y}], [∅, ∅]) := initSets_read_only y [1] [0]
  have hrun : whileLoop [⟨[], [1]⟩, ⟨[Instr.Load y], [0]⟩]
      (initSets [⟨[], [1]⟩, ⟨[Instr.Load y], [0]⟩] (List.replicate 2 ∅)
        (List.replicate 2 ∅)).1
      (initSets [⟨[], [1]⟩, ⟨[Instr.Load y], [0]⟩] (List.replicate 2 ∅)
        (List.replicate 2 ∅)).2 [0, 1] [∅, ∅] = ([{y}, {y}], 2) := by
    rw [hinit]
    exact run_cycle y
  refine ⟨?_, congrArg Prod.fst hinit, congrArg Prod.snd hinit, congrArg Prod.fst hrun,
    congrArg Prod.snd hrun, ?_⟩
  · intro bb hbb s hs
    simp only [List.mem_cons, List.mem_singleton, List.not_mem_nil, or_false] at hbb
    rcases hbb with h | h <;> rw [h] at hs <;> simp at hs <;> simp [hs]
  · show whileLoopFuel [⟨[], [1]⟩, ⟨[Instr.Load y], [0]⟩]
      (initSets [⟨[], [1]⟩, ⟨[Instr.Load y], [0]⟩] (List.replicate 2 ∅)
        (List.replicate 2 ∅)).1
      (initSets [⟨[], [1]⟩, ⟨[Instr.Load y], [0]⟩] (List.replicate 2 ∅)
        (List.replicate 2 ∅)).2 [0, 1] 2 [∅, ∅] = some ([{y}, {y}], 2)
    rw [hinit]
    have hy : ¬ (∅ : Finset Nat) = {y} := fun h => Finset.singleton_ne_empty y h.symm
    simp [whileLoopFuel, sweepLoop, computeLiveOut, addSucc, noBlock, hy]

/-! ## Successor lists as sets -/

section succsets

variable {UEVar VarKill : List (Finset Nat)}

theorem Reach.congr_succs {BBList1 BBList2 : List BasicBlock}
    (hsuccs : ∀ i s, s ∈ (BBList1.getD i noBlock).succs ↔ s ∈ (BBList2.getD i noBlock).succs)
    {L L' : List (Finset Nat)} (h : Reach BBList1 UEVar VarKill L L') :
    Reach BBList2 UEVar VarKill L L' := by
  induction h with
  | refl => exact Reach.refl
  | step M b s X _ hs hX ih => exact Reach.step M b s X ih ((hsuccs b s).1 hs) hX

theorem liveOutEq_congr_succs {BBList1 BBList2 : List BasicBlock}
    (hsuccs : ∀ i s, s ∈ (BBList1.getD i noBlock).succs ↔ s ∈ (BBList2.getD i noBlock).succs)
    (X : Nat → Finset Nat) (b : Nat) :
    liveOutEq BBList1 UEVar VarKill X b = liveOutEq BBList2 UEVar VarKill X b := by
  ext v
  rw [mem_liveOutEq, mem_liveOutEq]
  constructor
  · rintro ⟨s, hs, h⟩
    exact ⟨s, (hsuccs b s).1 hs, h⟩
  · rintro ⟨s, hs, h⟩
    exact ⟨s, (hsuccs b s).2 hs, h⟩

theorem initSets_congr_insts {BBList1 BBList2 : List BasicBlock}
    (hlen : BBList1.length = BBList2.length)
    (hinsts : ∀ i, (BBList1.getD i noBlock).insts = (BBList2.getD i noBlock).insts) :
    (analyse BBList1).UEVar = (analyse BBList2).UEVar ∧
      (analyse BBList1).VarKill = (analyse BBList2).VarKill := by
  constructor
  · apply ext_getD
    · exact (length_initSets BBList1).1.trans (hlen.trans (length_initSets BBList2).1.symm)
    · intro j
      show (initSets BBList1 _ _).1.getD j ∅ = (initSets BBList2 _ _).1.getD j ∅
      rw [initSets_ueVar_getD, initSets_ueVar_getD, hinsts]
  · apply ext_getD
    · exact (length_initSets BBList1).2.trans (hlen.trans (length_initSets BBList2).2.symm)
    · intro j
      show (initSets BBList1 _ _).2.getD j ∅ = (initSets BBList2 _ _).2.getD j ∅
      rw [initSets_varKill_getD, initSets_varKill_getD, hinsts]

end succsets

/-- C20 (successor lists act as sets): two well-formed routines with the same number
of blocks, the same instructions in each block and, for each block, successor lists
with the same elements (in any order, with any repetitions) get the same `UEVar`,
`VarKill` and final `LiveOut` vectors. -/
theorem successor_lists_as_sets (BBList1 BBList2 : List BasicBlock)
    (_hwf1 : WellFormed BBList1) (_hwf2 : WellFormed BBList2)
    (hlen : BBList1.length = BBList2.length)
    (hinsts : ∀ i, (BBList1.getD i noBlock).insts = (BBList2.getD i noBlock).insts)
    (hsuccs : ∀ i s,
      s ∈ (BBList1.getD i noBlock).succs ↔ s ∈ (BBList2.getD i noBlock).succs) :
    (analyse BBList1).LiveOut = (analyse BBList2).LiveOut ∧
    (analyse BBList1).UEVar = (analyse BBList2).UEVar ∧
    (analyse BBList1).VarKill = (analyse BBList2).VarKill := by
  obtain ⟨hUE, hVK⟩ := initSets_congr_insts hlen hinsts
  refine ⟨?_, hUE, hVK⟩
  have hall1 : ∀ b, b < BBList1.length → b ∈ List.range BBList1.length :=
    fun b hb => List.mem_range.2 hb
  have hall2 : ∀ b, b < BBList2.length → b ∈ List.range BBList2.length :=
    fun b hb => List.mem_range.2 hb
  have hL2 : (analyse BBList2).LiveOut =
      (whileLoop BBList2 (analyse BBList1).UEVar (analyse BBList1).VarKill
        (List.range BBList1.length) (List.replicate BBList1.length ∅)).1 := by
    rw [hUE, hVK, hlen]
    rfl
  have hr2 := @whileLoop_reach BBList2 (analyse BBList1).UEVar (analyse BBList1).VarKill
    (List.range BBList1.length) (List.replicate BBList1.length ∅)
  have hp2 := @whileLoop_prefixed BBList2 (analyse BBList1).UEVar (analyse BBList1).VarKill
    (List.range BBList1.length) (hlen ▸ hall2)
  rw [← hlen] at hp2
  rw [hL2]
  refine reach_prefixed_unique BBList1.length _ _
    (whileLoop_reach (List.range BBList1.length) _)
    (hr2.congr_succs (fun i s => (hsuccs i s).symm))
    (whileLoop_prefixed _ hall1) ?_
  intro b
  rw [liveOutEq_congr_succs hsuccs]
  exact hp2 b

/-- The statement of C20 at two routines that differ in the order and the repetition
of successors. -/
theorem successor_lists_as_sets_witness :
    WellFormed [⟨[Instr.Load 2], [1, 0]⟩, ⟨[Instr.Store 2, Instr.Load 4], [0]⟩] ∧
    WellFormed [⟨[Instr.Load 2], [0, 1, 0]⟩, ⟨[Instr.Store 2, Instr.Load 4], [0, 0]⟩] ∧
    (analyse [⟨[Instr.Load 2], [1, 0]⟩, ⟨[Instr.Store 2, Instr.Load 4], [0]⟩]).LiveOut =
      (analyse [⟨[Instr.Load 2], [0, 1, 0]⟩,
        ⟨[Instr.Store 2, Instr.Load 4], [0, 0]⟩]).LiveOut :=
  ⟨by decide, by decide,
    (successor_lists_as_sets
      [⟨[Instr.Load 2], [1, 0]⟩, ⟨[Instr.Store 2, Instr.Load 4], [0]⟩]
      [⟨[Instr.Load 2], [0, 1, 0]⟩, ⟨[Instr.Store 2, Instr.Load 4], [0, 0]⟩]
      (by decide) (by decide) rfl
      (fun i => by
        rcases i with _ | _ | i <;> rfl)
      (fun i s => by
        rcases i with _ | _ | i
        · simp only [List.getD_cons_zero, List.mem_cons, List.mem_singleton,
            List.not_mem_nil, or_false]
          tauto
        · simp
        · simp)).1⟩

/-! ## The checked model: lookups that can fail -/

/-- The lookup `BBMap.at(Succ)` in the map lines 85-90 build, whose keys are the
`count` blocks of the routine: the index of the block, or a failure
(`std::out_of_range`) for a successor that is no block of the routine. -/
def BBMapAt (count : Nat) (Succ : Nat) : Option Nat :=
  if Succ < count then some Succ else none

/-- The successor-loop body of `computeLiveOut` with every lookup checked: `none`
when `BBMap.at(Succ)` fails or an index into a vector is out of bounds. -/
def addSuccChecked (bbIndex count : Nat) (UEVar VarKill LiveOut : List (Finset Nat))
    (Succ : Nat) : Option (List (Finset Nat)) := do
  let i ← BBMapAt count Succ
  let lo ← LiveOut[i]?
  let vk ← VarKill[i]?
  let ue ← UEVar[i]?
  let cur ← LiveOut[bbIndex]?
  let dest := lo \ vk
  let dest1 := dest ∪ ue
  pure (LiveOut.set bbIndex (dest1 ∪ cur))

/-- The function `computeLiveOut` with every lookup checked. -/
def computeLiveOutChecked (bbIndex : Nat) (BBList : List BasicBlock)
    (UEVar VarKill LiveOut : List (Finset Nat)) : Option (List (Finset Nat)) := do
  let bb ← BBList[bbIndex]?
  bb.succs.foldlM (addSuccChecked bbIndex BBList.length UEVar VarKill) LiveOut

/-- One round of the outer loop of `initialize` with every index checked. -/
def initStepChecked (BBList : List BasicBlock)
    (acc : List (Finset Nat) × List (Finset Nat)) (i : Nat) :
    Option (List (Finset Nat) × List (Finset Nat)) := do
  let bb ← BBList[i]?
  let ue ← acc.1[i]?
  let vk ← acc.2[i]?
  let r := scanBlock bb ue vk
  pure (acc.1.set i r.1, acc.2.set i r.2)

/-- The function `initialize` with every index checked. -/
def initSetsChecked (BBList : List BasicBlock) (UEVar VarKill : List (Finset Nat)) :
    Option (List (Finset Nat) × List (Finset Nat)) :=
  (List.range BBList.length).foldlM (initStepChecked BBList) (UEVar, VarKill)

/-- The `for` loop of lines 104-112 with every lookup checked. -/
def sweepLoopChecked (BBList : List BasicBlock) (UEVar VarKill : List (Finset Nat)) :
    List Nat → List (Finset Nat) → Bool → Option (List (Finset Nat) × Bool)
  | [], LiveOut, flag => some (LiveOut, flag)
  | i :: rest, LiveOut, flag => do
    let prev ← LiveOut[i]?
    let LiveOut1 ← computeLiveOutChecked i BBList UEVar VarKill LiveOut
    let cur ← LiveOut1[i]?
    sweepLoopChecked BBList UEVar VarKill rest LiveOut1 (if prev ≠ cur then true else flag)

section checked

variable {BBList : List BasicBlock} {UEVar VarKill : List (Finset Nat)}

theorem getElem?_eq_some_getD (L : List (Finset Nat)) (i : Nat) (h : i < L.length) :
    L[i]? = some (L.getD i ∅) := by
  simp [List.getD_eq_getElem?_getD, List.getElem?_eq_getElem h]

theorem getD_of_getElem? (L : List (Finset Nat)) (i : Nat) (x : Finset Nat)
    (h : L[i]? = some x) : L.getD i ∅ = x := by
  simp [List.getD_eq_getElem?_getD, h]

/-- Whatever the checked loop body returns is what the loop body returns. -/
theorem addSuccChecked_sound (b count : Nat) (L : List (Finset Nat)) (s : Nat)
    (r : List (Finset Nat))
    (h : addSuccChecked b count UEVar VarKill L s = some r) :
    r = addSucc b UEVar VarKill L s := by
  unfold addSuccChecked BBMapAt at h
  by_cases hs : s < count
  · simp only [hs, if_true, Option.bind_eq_bind, Option.some_bind, Option.pure_def,
      Option.bind_eq_some] at h
    obtain ⟨lo, hlo, vk, hvk, ue, hue, cur, hcur, hr⟩ := h
    rw [← Option.some.inj hr, addSucc, getD_of_getElem? L s lo hlo,
      getD_of_getElem? VarKill s vk hvk, getD_of_getElem? UEVar s ue hue,
      getD_of_getElem? L b cur hcur]
  · simp [hs] at h

theorem foldlM_addSuccChecked_sound (b count : Nat) (ss : List Nat) (L r : List (Finset Nat))
    (h : ss.foldlM (addSuccChecked b count UEVar VarKill) L = some r) :
    r = ss.foldl (addSucc b UEVar VarKill) L := by
  induction ss generalizing L with
  | nil =>
    simp only [List.foldlM_nil, Option.pure_def] at h
    exact (Option.some.inj h).symm
  | cons s rest ih =>
    rw [List.foldlM_cons] at h
    simp only [Option.bind_eq_bind, Option.bind_eq_some] at h
    obtain ⟨L1, h1, h2⟩ := h
    rw [List.foldl_cons, ← addSuccChecked_sound b count L s L1 h1]
    exact ih L1 h2

theorem computeLiveOutChecked_sound (b : Nat) (L r : List (Finset Nat))
    (h : computeLiveOutChecked b BBList UEVar VarKill L = some r) :
    r = computeLiveOut b BBList UEVar VarKill L := by
  unfold computeLiveOutChecked at h
  simp only [Option.bind_eq_bind, Option.bind_eq_some] at h
  obtain ⟨bb, hbb, h2⟩ := h
  have : BBList.getD b noBlock = bb := by
    simp [List.getD_eq_getElem?_getD, hbb]
  unfold computeLiveOut
  rw [this]
  exact foldlM_addSuccChecked_sound b _ _ L r h2

theorem sweepLoopChecked_sound (order : List Nat) (L : List (Finset Nat)) (flag : Bool)
    (r : List (Finset Nat) × Bool)
    (h : sweepLoopChecked BBList UEVar VarKill order L flag = some r) :
    r = sweepLoop BBList UEVar VarKill order L flag := by
  induction order generalizing L flag with
  | nil =>
    rw [sweepLoopChecked] at h
    exact (Option.some.inj h).symm
  | cons i rest ih =>
    rw [sweepLoopChecked] at h
    simp only [Option.bind_eq_bind, Option.bind_eq_some] at h
    obtain ⟨prev, hprev, L1, hL1, cur, hcur, h2⟩ := h
    have e1 := computeLiveOutChecked_sound i L L1 hL1
    rw [sweepLoop, ← e1, getD_of_getElem? L i prev hprev, getD_of_getElem? L1 i cur hcur]
    exact ih _ _ h2

theorem sweepLoopChecked_missing_lt (order : List Nat) (L L' : List (Finset Nat))
    (h : sweepLoopChecked BBList UEVar VarKill order L false = some (L', true)) :
    missing UEVar L' < missing UEVar L := by
  have e := sweepLoopChecked_sound order L false (L', true) h
  have h2 : (sweepLoop BBList UEVar VarKill order L false).2 = true := by rw [← e]
  have := sweepLoop_missing_lt order L h2
  rw [← e] at this
  exact this

end checked

/-- The loop `while (flag)` with every lookup checked: `none` as soon as a sweep
fails. -/
def whileLoopChecked (BBList : List BasicBlock) (UEVar VarKill : List (Finset Nat))
    (order : List Nat) (LiveOut : List (Finset Nat)) : Option (List (Finset Nat) × Nat) :=
  match h : sweepLoopChecked BBList UEVar VarKill order LiveOut false with
  | none => none
  | some (LiveOut1, true) =>
    (whileLoopChecked BBList UEVar VarKill order LiveOut1).map (fun r => (r.1, r.2 + 1))
  | some (LiveOut1, false) => some (LiveOut1, 1)
termination_by missing UEVar LiveOut
decreasing_by exact sweepLoopChecked_missing_lt order LiveOut LiveOut1 h

/-- Lines 81-113 of `runOnFunction` with every lookup checked. -/
def analyseChecked (BBList : List BasicBlock) : Option Analysis := do
  let count := BBList.length
  let sets ← initSetsChecked BBList (List.replicate count ∅) (List.replicate count ∅)
  let r ← whileLoopChecked BBList sets.1 sets.2 (List.range BBList.length)
    (List.replicate count ∅)
  pure { UEVar := sets.1, VarKill := sets.2, LiveOut := r.1, sweeps := r.2 }

section checkedcomplete

variable {BBList : List BasicBlock} {UEVar VarKill : List (Finset Nat)}

theorem whileLoopChecked_eq (order : List Nat) (L : List (Finset Nat)) :
    whileLoopChecked BBList UEVar VarKill order L =
      match sweepLoopChecked BBList UEVar VarKill order L false with
      | none => none
      | some (L1, true) =>
        (whileLoopChecked BBList UEVar VarKill order L1).map (fun r => (r.1, r.2 + 1))
      | some (L1, false) => some (L1, 1) := by
  rw [whileLoopChecked]
  split <;> simp [*]

theorem addSuccChecked_complete (b count : Nat) (L : List (Finset Nat)) (s : Nat)
    (hs : s < count) (hb : b < count) (hL : L.length = count)
    (hUE : UEVar.length = count) (hVK : VarKill.length = count) :
    addSuccChecked b count UEVar VarKill L s = some (addSucc b UEVar VarKill L s) := by
  unfold addSuccChecked BBMapAt
  rw [if_pos hs]
  simp only [Option.bind_eq_bind, Option.some_bind, Option.pure_def]
  rw [getElem?_eq_some_getD L s (hL ▸ hs), getElem?_eq_some_getD VarKill s (hVK ▸ hs),
    getElem?_eq_some_getD UEVar s (hUE ▸ hs), getElem?_eq_some_getD L b (hL ▸ hb)]
  rfl

theorem foldlM_addSuccChecked_complete (b count : Nat) (ss : List Nat)
    (hss : ∀ s ∈ ss, s < count) (hb : b < count)
    (hUE : UEVar.length = count) (hVK : VarKill.length = count)
    (L : List (Finset Nat)) (hL : L.length = count) :
    ss.foldlM (addSuccChecked b count UEVar VarKill) L =
      some (ss.foldl (addSucc b UEVar VarKill) L) := by
  induction ss generalizing L with
  | nil => rfl
  | cons s rest ih =>
    rw [List.foldlM_cons, addSuccChecked_complete b count L s
      (hss s (List.mem_cons_self s rest)) hb hL hUE hVK]
    simp only [Option.bind_eq_bind, Option.some_bind, List.foldl_cons]
    apply ih (fun t ht => hss t (List.mem_cons_of_mem s ht))
    rw [addSucc_eq, List.length_set]
    exact hL

theorem computeLiveOutChecked_complete (hwf : WellFormed BBList) (b : Nat)
    (hb : b < BBList.length) (hUE : UEVar.length = BBList.length)
    (hVK : VarKill.length = BBList.length) (L : List (Finset Nat))
    (hL : L.length = BBList.length) :
    computeLiveOutChecked b BBList UEVar VarKill L =
      some (computeLiveOut b BBList UEVar VarKill L) := by
  have hget : BBList.getD b noBlock = BBList[b] := by
    simp [List.getD_eq_getElem?_getD, List.getElem?_eq_getElem hb]
  unfold computeLiveOutChecked computeLiveOut
  rw [List.getElem?_eq_getElem hb, hget]
  simp only [Option.bind_eq_bind, Option.some_bind]
  exact foldlM_addSuccChecked_complete b _ _
    (fun s hs => hwf BBList[b] (List.getElem_mem hb) s hs) hb hUE hVK L hL

theorem sweepLoopChecked_complete (hwf : WellFormed BBList) (order : List Nat)
    (horder : ∀ i ∈ order, i < BBList.length) (hUE : UEVar.length = BBList.length)
    (hVK : VarKill.length = BBList.length) (L : List (Finset Nat))
    (hL : L.length = BBList.length) (flag : Bool) :
    sweepLoopChecked BBList UEVar VarKill order L flag =
      some (sweepLoop BBList UEVar VarKill order L flag) := by
  induction order generalizing L flag with
  | nil => rfl
  | cons i rest ih =>
    have hi := horder i (List.mem_cons_self i rest)
    have hL1 : (computeLiveOut i BBList UEVar VarKill L).length = BBList.length :=
      (computeLiveOut_reach i L).length_eq.trans hL
    rw [sweepLoopChecked, sweepLoop, getElem?_eq_some_getD L i (hL ▸ hi),
      computeLiveOutChecked_complete hwf i hi hUE hVK L hL]
    simp only [Option.bind_eq_bind, Option.some_bind]
    rw [getElem?_eq_some_getD _ i (hL1 ▸ hi)]
    simp only [Option.some_bind]
    exact ih (fun k hk => horder k (List.mem_cons_of_mem i hk)) _ hL1 _

theorem whileLoopChecked_complete (hwf : WellFormed BBList) (order : List Nat)
    (horder : ∀ i ∈ order, i < BBList.length) (hUE : UEVar.length = BBList.length)
    (hVK : VarKill.length = BBList.length) (L : List (Finset Nat)) :
    L.length = BBList.length →
      whileLoopChecked BBList UEVar VarKill order L =
        some (whileLoop BBList UEVar VarKill order L) := by
  induction L using @whileLoop_induction BBList UEVar VarKill order with
  | hchanged L h ih =>
    intro hL
    have hsw := sweepLoopChecked_complete hwf order horder hUE hVK L hL false
    have hL1 := (@sweepLoop_reach BBList UEVar VarKill order L false).length_eq.trans hL
    have hpair : sweepLoop BBList UEVar VarKill order L false =
        ((sweepLoop BBList UEVar VarKill order L false).1, true) := Prod.ext rfl h
    rw [whileLoopChecked_eq, hsw, hpair]
    simp only
    rw [ih hL1, whileLoop_eq order L, if_pos h]
    rfl
  | hstable L h =>
    intro hL
    have hsw := sweepLoopChecked_complete hwf order horder hUE hVK L hL false
    have hpair : sweepLoop BBList UEVar VarKill order L false =
        ((sweepLoop BBList UEVar VarKill order L false).1, false) := Prod.ext rfl h
    rw [whileLoopChecked_eq, hsw, hpair]
    simp only
    rw [whileLoop_eq order L, if_neg (by simp [h])]

theorem foldlM_initStepChecked_complete (idx : List Nat)
    (hidx : ∀ i ∈ idx, i < BBList.length)
    (acc : List (Finset Nat) × List (Finset Nat))
    (h1 : acc.1.length = BBList.length) (h2 : acc.2.length = BBList.length) :
    idx.foldlM (initStepChecked BBList) acc = some (idx.foldl (initStep BBList) acc) := by
  induction idx generalizing acc with
  | nil => rfl
  | cons i rest ih =>
    have hi := hidx i (List.mem_cons_self i rest)
    have hget : BBList.getD i noBlock = BBList[i] := by
      simp [List.getD_eq_getElem?_getD, List.getElem?_eq_getElem hi]
    have hstep : initStepChecked BBList acc i = some (initStep BBList acc i) := by
      unfold initStepChecked initStep
      rw [List.getElem?_eq_getElem hi, getElem?_eq_some_getD acc.1 i (h1 ▸ hi),
        getElem?_eq_some_getD acc.2 i (h2 ▸ hi), hget]
      rfl
    rw [List.foldlM_cons, hstep]
    simp only [Option.bind_eq_bind, Option.some_bind, List.foldl_cons]
    apply ih (fun k hk => hidx k (List.mem_cons_of_mem i hk))
    · simpa [initStep] using h1
    · simpa [initStep] using h2

theorem analyseChecked_complete (hwf : WellFormed BBList) :
    analyseChecked BBList = some (analyse BBList) := by
  have hinit : initSetsChecked BBList (List.replicate BBList.length ∅)
      (List.replicate BBList.length ∅) =
      some (initSets BBList (List.replicate BBList.length ∅)
        (List.replicate BBList.length ∅)) :=
    foldlM_initStepChecked_complete _ (fun i hi => List.mem_range.1 hi) _
      (List.length_replicate _ _) (List.length_replicate _ _)
  have hloop := whileLoopChecked_complete hwf (List.range BBList.length)
    (fun i hi => List.mem_range.1 hi) (length_initSets BBList).1 (length_initSets BBList).2
    (List.replicate BBList.length ∅) (List.length_replicate _ _)
  unfold analyseChecked
  simp only [hinit, Option.bind_eq_bind, Option.some_bind, hloop, Option.pure_def]
  rfl

/-- A successor that is no block of the routine makes the checked analysis fail: the
lookup `BBMap.at` has no entry for it. -/
theorem analyseChecked_ill_formed : analyseChecked [⟨[], [1]⟩] = none := by
  have hsw : sweepLoopChecked [⟨[], [1]⟩]
      (initSets [⟨[], [1]⟩] (List.replicate 1 ∅) (List.replicate 1 ∅)).1
      (initSets [⟨[], [1]⟩] (List.replicate 1 ∅) (List.replicate 1 ∅)).2
      (List.range 1) (List.replicate 1 ∅) false = none := by decide
  have hinit : initSetsChecked [⟨[], [1]⟩] (List.replicate 1 ∅) (List.replicate 1 ∅) =
      some (initSets [⟨[], [1]⟩] (List.replicate 1 ∅) (List.replicate 1 ∅)) := by decide
  unfold analyseChecked
  simp only [List.length_singleton, hinit, Option.bind_eq_bind, Option.some_bind]
  rw [whileLoopChecked_eq, hsw]
  rfl

end checkedcomplete

/-- C13 (no error on well-formed input): if every successor of every block of
`BBList` is a block of `BBList`, then every lookup `BBMap.at(Succ)` succeeds, and with
every index into `UEVar`, `VarKill` and `LiveOut` checked, `initialize`,
`computeLiveOut`, a sweep and the whole analysis return (no error branch is taken)
exactly what the unchecked functions compute; the result has one `UEVar`, one
`VarKill` and one `LiveOut` set per block. -/
theorem no_error_on_well_formed (BBList : List BasicBlock) (hwf : WellFormed BBList) :
    (∀ bb ∈ BBList, ∀ s ∈ bb.succs, BBMapAt BBList.length s = some s) ∧
    initSetsChecked BBList (List.replicate BBList.length ∅)
        (List.replicate BBList.length ∅) =
      some (initSets BBList (List.replicate BBList.length ∅)
        (List.replicate BBList.length ∅)) ∧
    (∀ (i : Nat) (L : List (Finset Nat)), i < BBList.length → L.length = BBList.length →
      computeLiveOutChecked i BBList (analyse BBList).UEVar (analyse BBList).VarKill L =
        some (computeLiveOut i BBList (analyse BBList).UEVar (analyse BBList).VarKill L)) ∧
    (∀ (L : List (Finset Nat)) (flag : Bool), L.length = BBList.length →
      sweepLoopChecked BBList (analyse BBList).UEVar (analyse BBList).VarKill
          (List.range BBList.length) L flag =
        some (sweepLoop BBList (analyse BBList).UEVar (analyse BBList).VarKill
          (List.range BBList.length) L flag)) ∧
    analyseChecked BBList = some (analyse BBList) ∧
    (analyse BBList).UEVar.length = BBList.length ∧
    (analyse BBList).VarKill.length = BBList.length ∧
    (analyse BBList).LiveOut.length = BBList.length := by
  have hUE : (analyse BBList).UEVar.length = BBList.length := (length_initSets BBList).1
  have hVK : (analyse BBList).VarKill.length = BBList.length := (length_initSets BBList).2
  refine ⟨?_, ?_, ?_, ?_, analyseChecked_complete hwf, hUE, hVK, ?_⟩
  · intro bb hbb s hs
    unfold BBMapAt
    rw [if_pos (hwf bb hbb s hs)]
  · exact foldlM_initStepChecked_complete _ (fun i hi => List.mem_range.1 hi) _
      (List.length_replicate _ _) (List.length_replicate _ _)
  · intro i L hi hL
    exact computeLiveOutChecked_complete hwf i hi hUE hVK L hL
  · intro L flag hL
    exact sweepLoopChecked_complete hwf _ (fun i hi => List.mem_range.1 hi) hUE hVK L hL flag
  · exact (whileLoop_reach (List.range BBList.length) _).length_eq.trans
      (List.length_replicate _ _)

/-- The statement of C13 at a two-block routine with a cycle and a self-loop. -/
theorem no_error_on_well_formed_witness :
    WellFormed [⟨[Instr.Load 2], [1, 0]⟩, ⟨[Instr.Store 2, Instr.Load 4], [0]⟩] ∧
    analyseChecked [⟨[Instr.Load 2], [1, 0]⟩, ⟨[Instr.Store 2, Instr.Load 4], [0]⟩] =
      some (analyse [⟨[Instr.Load 2], [1, 0]⟩, ⟨[Instr.Store 2, Instr.Load 4], [0]⟩]) :=
  ⟨by decide, (no_error_on_well_formed
    [⟨[Instr.Load 2], [1, 0]⟩, ⟨[Instr.Store 2, Instr.Load 4], [0]⟩]
    (by decide)).2.2.2.2.1⟩

end Liveness
